import Mathlib

/-!
# SimpleVector (simple_vector.h): a shallow embedding

The container of `simple_vector.h` is embedded as a record of its three private
members (`capacity_`, `size_`, `array_`).  Every method becomes a function from the
state before the call to the pair (what the call reported, state after the call), so
that the state left behind by a thrown exception can be talked about.

* `size_t` is taken 64 bits wide: values are naturals, every arithmetic operation the
  source performs on `size_t` is reduced modulo `2 ^ 64`.
* An iterator is the signed element offset from `begin()`.
* An access outside the storage a buffer owns is undefined behaviour in C++; here it is
  the fault `out_of_bounds`.
* Element values are plain values: moving an element and copying it write the same value.
-/

namespace SimpleVector

/-! ## size_t arithmetic -/

/-- The number of values of `size_t` (64 bits). -/
def SIZE_MOD : Nat := 2 ^ 64

/-- Addition on `size_t`. -/
def wadd (a b : Nat) : Nat := (a + b) % SIZE_MOD

/-- Subtraction on `size_t` (operands below `SIZE_MOD`). -/
def wsub (a b : Nat) : Nat := (a + SIZE_MOD - b) % SIZE_MOD

/-- Multiplication on `size_t`. -/
def wmul (a b : Nat) : Nat := (a * b) % SIZE_MOD

/-! ## What a call can report besides a value -/

/-- The ways a call ends without a value: `std::out_of_range` thrown, an `assert` that
fails, an access outside the storage of a buffer. -/
inductive Fault where
  | out_of_range
  | assertion
  | out_of_bounds
  deriving DecidableEq, Repr

/-! ## The buffer collaborator -/

/-- Modelled from the spec: `array_ptr.h` (class `ArrayPtr`) is not part of the sources.
The spec (section 6) describes it as a buffer owning exactly N slots, with indexed
access and an ownership-transferring swap.  A buffer is the list of its slots; the
empty list is the buffer that owns nothing (null pointer). -/
abbrev ArrayPtr (α : Type) := List α

/-- Modelled from the spec: `ArrayPtr(size_t size)` allocates exactly `n` slots, which are
"default-constructed-or-uninitialized"; `fresh` is what a new slot holds.  Allocation
never fails (spec section 7 leaves allocation failure out of scope). -/
def ArrayPtr.alloc {α : Type} (fresh : α) (n : Nat) : ArrayPtr α := List.replicate n fresh

/-- Modelled from the spec: indexed access used to read, `x = a[i]`. -/
def ArrayPtr.read {α : Type} (a : ArrayPtr α) (i : Nat) : Option α := a[i]?

/-- Modelled from the spec: indexed access used to write, `a[i] = x`. -/
def ArrayPtr.write {α : Type} (a : ArrayPtr α) (i : Nat) (x : α) : Option (ArrayPtr α) :=
  if i < a.length then some (a.set i x) else none

/-- The loop of `std::copy` and `std::move`: `n` times `*d_first++ = *first++`, reading
from `src` at `first` and writing into `dst` at `d_first`. -/
def copyLoop {α : Type} (src : ArrayPtr α) :
    Nat → Nat → Nat → ArrayPtr α → Option (ArrayPtr α)
  | _, _, 0, dst => some dst
  | first, d_first, n + 1, dst =>
    match ArrayPtr.read src first with
    | none => none
    | some x =>
      match ArrayPtr.write dst d_first x with
      | none => none
      | some dst1 => copyLoop src (first + 1) (d_first + 1) n dst1

/-- The call `std::copy(first, last, d_first)` where `[first, last)` lies in `src` and
`d_first` points into `dst`. -/
def std_copy {α : Type} (src : ArrayPtr α) (first last : Nat) (dst : ArrayPtr α)
    (d_first : Nat) : Option (ArrayPtr α) :=
  if last < first then none else copyLoop src first d_first (last - first) dst

/-- The call `std::move(first, last, d_first)` on ranges: the values written are those
`std::copy` writes. -/
def std_move {α : Type} (src : ArrayPtr α) (first last : Nat) (dst : ArrayPtr α)
    (d_first : Nat) : Option (ArrayPtr α) :=
  std_copy src first last dst d_first

/-- The call `std::copy_backward(first, last, d_last)`: the destination range ends at
`d_last`. -/
def std_copy_backward {α : Type} (src : ArrayPtr α) (first last : Nat) (dst : ArrayPtr α)
    (d_last : Nat) : Option (ArrayPtr α) :=
  if last < first ∨ d_last < last - first then none
  else copyLoop src first (d_last - (last - first)) (last - first) dst

/-- The call `std::move_backward(first, last, d_last)`. -/
def std_move_backward {α : Type} (src : ArrayPtr α) (first last : Nat) (dst : ArrayPtr α)
    (d_last : Nat) : Option (ArrayPtr α) :=
  std_copy_backward src first last dst d_last

end SimpleVector

/-! ## The container -/

/-- The private members of `SimpleVector<Type>`. -/
structure SimpleVector (α : Type) where
  capacity_ : Nat
  size_ : Nat
  array_ : SimpleVector.ArrayPtr α
  deriving DecidableEq, Repr

namespace SimpleVector

variable {α : Type}

/-- What a method call leaves: what it reported and the object after the call. -/
abbrev Ret (ρ α : Type) := Except Fault ρ × SimpleVector α

/-- Source `SimpleVector() noexcept = default`. -/
def ctor_default : SimpleVector α := { capacity_ := 0, size_ := 0, array_ := [] }

/-- The offset of `end()` from `begin()`: `begin()` is `&array_[0]` and `end()` is
`&array_[size_]` when `capacity_ != 0`, both are `nullptr` otherwise. -/
def end_ (v : SimpleVector α) : Nat := if v.capacity_ ≠ 0 then v.size_ else 0

/-- Source `void PushBack(const Type& item)`. -/
def PushBack (fresh : α) (v : SimpleVector α) (item : α) : Ret Unit α :=
  if v.capacity_ > v.size_ then
    match ArrayPtr.write v.array_ v.size_ item with
    | none => (.error .out_of_bounds, v)
    | some a => (.ok (), { v with array_ := a, size_ := wadd v.size_ 1 })
  else if v.capacity_ ≠ 0 then
    let v1 : SimpleVector α := { v with capacity_ := wmul v.capacity_ 2 }
    let tmp := ArrayPtr.alloc fresh v1.capacity_
    match std_copy v1.array_ 0 v1.end_ tmp 0 with
    | none => (.error .out_of_bounds, v1)
    | some tmp1 =>
      match ArrayPtr.write tmp1 v1.size_ item with
      | none => (.error .out_of_bounds, { v1 with array_ := tmp1 })
      | some a => (.ok (), { v1 with array_ := a, size_ := wadd v1.size_ 1 })
  else
    let v1 : SimpleVector α := { v with capacity_ := wadd v.capacity_ 1 }
    let tmp := ArrayPtr.alloc fresh v1.capacity_
    match std_copy v1.array_ 0 v1.end_ tmp 0 with
    | none => (.error .out_of_bounds, v1)
    | some tmp1 =>
      match ArrayPtr.write tmp1 v1.size_ item with
      | none => (.error .out_of_bounds, { v1 with array_ := tmp1 })
      | some a => (.ok (), { v1 with array_ := a, size_ := wadd v1.size_ 1 })

/-- Source `void PushBack(Type&& item)`. -/
def PushBack_rv (fresh : α) (v : SimpleVector α) (item : α) : Ret Unit α :=
  if v.capacity_ > v.size_ then
    match ArrayPtr.write v.array_ v.size_ item with
    | none => (.error .out_of_bounds, v)
    | some a => (.ok (), { v with array_ := a, size_ := wadd v.size_ 1 })
  else if v.capacity_ ≠ 0 then
    let v1 : SimpleVector α := { v with capacity_ := wmul v.capacity_ 2 }
    let tmp := ArrayPtr.alloc fresh v1.capacity_
    match std_move v1.array_ 0 v1.end_ tmp 0 with
    | none => (.error .out_of_bounds, v1)
    | some tmp1 =>
      match ArrayPtr.write tmp1 v1.size_ item with
      | none => (.error .out_of_bounds, { v1 with array_ := tmp1 })
      | some a => (.ok (), { v1 with array_ := a, size_ := wadd v1.size_ 1 })
  else
    let v1 : SimpleVector α := { v with capacity_ := wadd v.capacity_ 1 }
    let tmp := ArrayPtr.alloc fresh v1.capacity_
    match std_move v1.array_ 0 v1.end_ tmp 0 with
    | none => (.error .out_of_bounds, v1)
    | some tmp1 =>
      match ArrayPtr.write tmp1 v1.size_ item with
      | none => (.error .out_of_bounds, { v1 with array_ := tmp1 })
      | some a => (.ok (), { v1 with array_ := a, size_ := wadd v1.size_ 1 })

/-- The loop `for (size_t i = 0; i < size_; i++) tmp[i] = value;` of the constructor
from a size and a value, with `n` iterations left. -/
def fillLoop (value : α) : Nat → Nat → ArrayPtr α → Option (ArrayPtr α)
  | _, 0, tmp => some tmp
  | i, n + 1, tmp =>
    match ArrayPtr.write tmp i value with
    | none => none
    | some tmp1 => fillLoop value (i + 1) n tmp1

/-- Source `SimpleVector(size_t size, const Type& value)`. -/
def ctor_size_value (fresh : α) (size : Nat) (value : α) : Ret Unit α :=
  let tmp := ArrayPtr.alloc fresh size
  match fillLoop value 0 size tmp with
  | none => (.error .out_of_bounds, { capacity_ := size, size_ := size, array_ := [] })
  | some tmp1 => (.ok (), { capacity_ := size, size_ := size, array_ := tmp1 })

/-- Source `void swap(SimpleVector& other) noexcept`: the object and `other` after the call. -/
def swap (v other : SimpleVector α) : SimpleVector α × SimpleVector α :=
  ({ capacity_ := other.capacity_, size_ := other.size_, array_ := other.array_ },
   { capacity_ := v.capacity_, size_ := v.size_, array_ := v.array_ })

/-- Source `explicit SimpleVector(size_t size)`: builds `tmp(size, Type{})` and swaps with it. -/
def ctor_size [Inhabited α] (fresh : α) (size : Nat) : Ret Unit α :=
  match ctor_size_value fresh size (default : α) with
  | (.error e, _) => (.error e, ctor_default)
  | (.ok _, tmp) => (.ok (), (swap ctor_default tmp).1)

/-- Source `SimpleVector(std::initializer_list<Type> init)`. -/
def ctor_init_list (fresh : α) (init : List α) : Ret Unit α :=
  let array_temp := ArrayPtr.alloc fresh init.length
  match std_copy init 0 init.length array_temp 0 with
  | none => (.error .out_of_bounds, ctor_default)
  | some a => (.ok (), { capacity_ := init.length, size_ := init.length, array_ := a })

/-- Source `SimpleVector(const SimpleVector& other)`: what the constructor reported, the new
object, and `other` after the call. -/
def ctor_copy (fresh : α) (other : SimpleVector α) :
    Except Fault Unit × SimpleVector α × SimpleVector α :=
  let tmp := ArrayPtr.alloc fresh other.size_
  match std_copy other.array_ 0 other.end_ tmp 0 with
  | none =>
    (.error .out_of_bounds,
     { capacity_ := other.capacity_, size_ := other.size_, array_ := [] }, other)
  | some tmp1 =>
    (.ok (), { capacity_ := other.capacity_, size_ := other.size_, array_ := tmp1 }, other)

/-- Source `SimpleVector(SimpleVector&& other)`: the new object and `other` after the call. -/
def ctor_move (other : SimpleVector α) : SimpleVector α × SimpleVector α :=
  ({ capacity_ := other.capacity_, size_ := other.size_, array_ := other.array_ },
   { capacity_ := 0, size_ := 0, array_ := [] })

/-- Source `void Reserve(size_t new_capacity)`. -/
def Reserve (fresh : α) (v : SimpleVector α) (new_capacity : Nat) : Ret Unit α :=
  if new_capacity > v.capacity_ then
    let tmp := ArrayPtr.alloc fresh new_capacity
    match std_copy v.array_ 0 v.end_ tmp 0 with
    | none => (.error .out_of_bounds, v)
    | some tmp1 => (.ok (), { v with array_ := tmp1, capacity_ := new_capacity })
  else (.ok (), v)

end SimpleVector

/-- The class `ReserveProxyObj`. -/
structure ReserveProxyObj where
  capacity_to_reserve_ : Nat
  deriving DecidableEq, Repr

namespace SimpleVector

variable {α : Type}

/-- The free function `ReserveProxyObj Reserve(size_t capacity_to_reserve)`. -/
def Reserve_request (capacity_to_reserve : Nat) : ReserveProxyObj :=
  { capacity_to_reserve_ := capacity_to_reserve }

/-- Source `SimpleVector(ReserveProxyObj reserved_vector)`. -/
def ctor_reserve (fresh : α) (reserved_vector : ReserveProxyObj) : Ret Unit α :=
  Reserve fresh ctor_default reserved_vector.capacity_to_reserve_

/-- Source `Type& operator[](size_t index) noexcept` (both overloads), in a build with assertions:
the value of the element referred to. -/
def subscript (v : SimpleVector α) (index : Nat) : Ret α α :=
  if index < v.size_ then
    match ArrayPtr.read v.array_ index with
    | none => (.error .out_of_bounds, v)
    | some x => (.ok x, v)
  else (.error .assertion, v)

/-- Source `Type& At(size_t index)` (both overloads): the value of the element referred to. -/
def At (v : SimpleVector α) (index : Nat) : Ret α α :=
  if index ≥ v.size_ then (.error .out_of_range, v)
  else
    match ArrayPtr.read v.array_ index with
    | none => (.error .out_of_bounds, v)
    | some x => (.ok x, v)

/-- Source `void Clear() noexcept`. -/
def Clear (v : SimpleVector α) : Ret Unit α := (.ok (), { v with size_ := 0 })

/-- Source `void Resize(size_t new_size)`. -/
def Resize (fresh : α) (v : SimpleVector α) (new_size : Nat) : Ret Unit α :=
  if new_size < v.size_ then (.ok (), { v with size_ := new_size })
  else if new_size < v.capacity_ then
    let n := wsub v.size_ new_size
    let tmp := ArrayPtr.alloc fresh n
    match std_move tmp 0 n v.array_ v.size_ with
    | none => (.error .out_of_bounds, v)
    | some a => (.ok (), { v with array_ := a, size_ := new_size })
  else
    let tmp := ArrayPtr.alloc fresh new_size
    match std_move v.array_ 0 v.end_ tmp 0 with
    | none => (.error .out_of_bounds, v)
    | some tmp1 => (.ok (), { capacity_ := new_size, size_ := new_size, array_ := tmp1 })

/-- Source `Iterator Insert(ConstIterator pos, const Type& value)`; `pos` and the iterator
returned are offsets from `begin()`. -/
def Insert (fresh : α) (v : SimpleVector α) (pos : Int) (value : α) : Ret Int α :=
  if (0 : Int) > pos ∨ (v.end_ : Int) < pos then (.error .out_of_range, v)
  else if v.capacity_ = 0 then
    let tmp := ArrayPtr.alloc fresh 1
    match ArrayPtr.write tmp 0 value with
    | none => (.error .out_of_bounds, v)
    | some tmp1 => (.ok 0, { capacity_ := 1, size_ := 1, array_ := tmp1 })
  else
    let new_capacity := if v.size_ = v.capacity_ then wmul v.capacity_ 2 else v.capacity_
    let tmp := ArrayPtr.alloc fresh new_capacity
    let dist := pos.toNat
    match std_copy v.array_ 0 dist tmp 0 with
    | none => (.error .out_of_bounds, v)
    | some tmp1 =>
      match ArrayPtr.write tmp1 dist value with
      | none => (.error .out_of_bounds, v)
      | some tmp2 =>
        match std_copy_backward v.array_ dist v.end_ tmp2 (1 + v.size_) with
        | none => (.error .out_of_bounds, v)
        | some tmp3 =>
          (.ok (dist : Int),
           { capacity_ := new_capacity, size_ := wadd v.size_ 1, array_ := tmp3 })

/-- Source `Iterator Insert(ConstIterator pos, Type&& value)`. -/
def Insert_rv (fresh : α) (v : SimpleVector α) (pos : Int) (value : α) : Ret Int α :=
  if (0 : Int) > pos ∨ (v.end_ : Int) < pos then (.error .out_of_range, v)
  else if v.capacity_ = 0 then
    let tmp := ArrayPtr.alloc fresh 1
    match ArrayPtr.write tmp 0 value with
    | none => (.error .out_of_bounds, v)
    | some tmp1 => (.ok 0, { capacity_ := 1, size_ := 1, array_ := tmp1 })
  else
    let new_capacity := if v.size_ = v.capacity_ then wmul v.capacity_ 2 else v.capacity_
    let tmp := ArrayPtr.alloc fresh new_capacity
    let dist := pos.toNat
    match std_move v.array_ 0 dist tmp 0 with
    | none => (.error .out_of_bounds, v)
    | some tmp1 =>
      match ArrayPtr.write tmp1 dist value with
      | none => (.error .out_of_bounds, v)
      | some tmp2 =>
        match std_move_backward v.array_ dist v.end_ tmp2 (1 + v.size_) with
        | none => (.error .out_of_bounds, v)
        | some tmp3 =>
          (.ok (dist : Int),
           { capacity_ := new_capacity, size_ := wadd v.size_ 1, array_ := tmp3 })

/-- Source `void PopBack() noexcept`, in a build with assertions. -/
def PopBack (v : SimpleVector α) : Ret Unit α :=
  if v.capacity_ ≠ 0 then (.ok (), { v with size_ := wsub v.size_ 1 })
  else (.error .assertion, v)

/-- The loops of `Erase`, `for (size_t i = ...; i < ...; ++i) tmp[i - shift] =
std::move(array_[i]);`, at counter `i` with `n` iterations left (`shift` is 0 in the
first loop and 1 in the second). -/
def moveLoop (src : ArrayPtr α) (shift : Nat) : Nat → Nat → ArrayPtr α → Option (ArrayPtr α)
  | _, 0, tmp => some tmp
  | i, n + 1, tmp =>
    match ArrayPtr.read src i with
    | none => none
    | some x =>
      match ArrayPtr.write tmp (wsub i shift) x with
      | none => none
      | some tmp1 => moveLoop src shift (i + 1) n tmp1

/-- Source `Iterator Erase(ConstIterator pos)`; `pos` and the iterator returned are offsets from
`begin()`. -/
def Erase (fresh : α) (v : SimpleVector α) (pos : Int) : Ret Int α :=
  if (0 : Int) > pos ∨ (v.end_ : Int) < pos then (.error .out_of_range, v)
  else
    let dist := pos.toNat
    let tmp := ArrayPtr.alloc fresh v.capacity_
    match moveLoop v.array_ 0 0 dist tmp with
    | none => (.error .out_of_bounds, v)
    | some tmp1 =>
      match moveLoop v.array_ 1 (wadd dist 1) (v.size_ - wadd dist 1) tmp1 with
      | none => (.error .out_of_bounds, v)
      | some tmp2 => (.ok (dist : Int), { v with array_ := tmp2, size_ := wsub v.size_ 1 })

/-! ## Objects at addresses: assignment -/

/-- The vectors a program holds, by address; what `this == &rhs` compares. -/
abbrev Store (α : Type) := Nat → SimpleVector α

/-- Source `SimpleVector& operator=(SimpleVector&& rhs)` called on the object at `this` with the
object at `rhs`. -/
def move_assign (s : Store α) (this rhs : Nat) : Store α :=
  if this ≠ rhs then
    let r := s rhs
    let t := s this
    Function.update
      (Function.update s this
        { capacity_ := r.capacity_, size_ := r.size_, array_ := r.array_ })
      rhs { capacity_ := 0, size_ := 0, array_ := t.array_ }
  else s

/-- Source `SimpleVector& operator=(const SimpleVector& rhs)` called on the object at `this` with
the object at `rhs`. -/
def copy_assign (fresh : α) (s : Store α) (this rhs : Nat) : Except Fault Unit × Store α :=
  if this = rhs then (.ok (), s)
  else if (s rhs).size_ = 0 then (.ok (), Function.update s this (Clear (s this)).2)
  else
    match ctor_copy fresh (s rhs) with
    | (.error e, _, _) => (.error e, s)
    | (.ok _, temp, rhs1) =>
      (.ok (), Function.update (Function.update s rhs rhs1) this (swap (s this) temp).1)

/-! ## Comparison -/

/-- The elements of `[cbegin(), cend())`, when that range lies inside the buffer. -/
def range (v : SimpleVector α) : Option (List α) :=
  if v.end_ ≤ v.array_.length then some (v.array_.take v.end_) else none

/-- Library function `std::lexicographical_compare` on two ranges. -/
def lexicographical_compare [LT α] [@DecidableRel α (· < ·)] : List α → List α → Bool
  | _, [] => false
  | [], _ :: _ => true
  | a :: l1, b :: l2 =>
    if a < b then true else if b < a then false else lexicographical_compare l1 l2

/-- Source `operator<`. -/
def op_lt [LT α] [@DecidableRel α (· < ·)] (lhs rhs : SimpleVector α) : Except Fault Bool :=
  match range lhs, range rhs with
  | some l, some r => .ok (lexicographical_compare l r)
  | _, _ => .error .out_of_bounds

/-- Source `operator==`: `!(lhs < rhs) && !(rhs < lhs)`. -/
def op_eq [LT α] [@DecidableRel α (· < ·)] (lhs rhs : SimpleVector α) : Except Fault Bool :=
  match op_lt lhs rhs with
  | .error e => .error e
  | .ok true => .ok false
  | .ok false =>
    match op_lt rhs lhs with
    | .error e => .error e
    | .ok b => .ok (!b)

/-- Source `operator!=`: `!(lhs == rhs)`. -/
def op_ne [LT α] [@DecidableRel α (· < ·)] (lhs rhs : SimpleVector α) : Except Fault Bool :=
  match op_eq lhs rhs with
  | .error e => .error e
  | .ok b => .ok (!b)

/-- Source `operator<=`: `lhs < rhs || lhs == rhs`. -/
def op_le [LT α] [@DecidableRel α (· < ·)] (lhs rhs : SimpleVector α) : Except Fault Bool :=
  match op_lt lhs rhs with
  | .error e => .error e
  | .ok true => .ok true
  | .ok false => op_eq lhs rhs

/-- Source `operator>`: `std::lexicographical_compare` with the operands exchanged. -/
def op_gt [LT α] [@DecidableRel α (· < ·)] (lhs rhs : SimpleVector α) : Except Fault Bool :=
  match range rhs, range lhs with
  | some r, some l => .ok (lexicographical_compare r l)
  | _, _ => .error .out_of_bounds

/-- Source `operator>=`: `rhs > lhs || rhs == lhs`. -/
def op_ge [LT α] [@DecidableRel α (· < ·)] (lhs rhs : SimpleVector α) : Except Fault Bool :=
  match op_gt rhs lhs with
  | .error e => .error e
  | .ok true => .ok true
  | .ok false => op_eq rhs lhs

/-! ## A caller -/

/-- The calls `PushBack(x)` for the values `x` of a list in order, on one vector; a call
that does not complete ends the sequence. -/
def PushBack_all (fresh : α) : SimpleVector α → List α → Ret Unit α
  | v, [] => (.ok (), v)
  | v, x :: xs =>
    match PushBack fresh v x with
    | (.ok _, v1) => PushBack_all fresh v1 xs
    | (.error e, v1) => (.error e, v1)

/-- The call `Erase(Insert(pos, value))` on one vector: `Erase` receives the iterator
`Insert` returned; an `Insert` that does not complete ends the sequence. -/
def Erase_after_Insert (fresh : α) (v : SimpleVector α) (pos : Int) (value : α) : Ret Int α :=
  match Insert fresh v pos value with
  | (.ok it, v1) => Erase fresh v1 it
  | (.error e, v1) => (.error e, v1)

/-! ## Lemmas on the buffer primitives -/

theorem wadd_of_lt {a b : Nat} (h : a + b < SIZE_MOD) : wadd a b = a + b := by
  unfold wadd; exact Nat.mod_eq_of_lt h

theorem wmul_of_lt {a b : Nat} (h : a * b < SIZE_MOD) : wmul a b = a * b := by
  unfold wmul; exact Nat.mod_eq_of_lt h

theorem wsub_of_le {a b : Nat} (h : b ≤ a) (ha : a < SIZE_MOD) : wsub a b = a - b := by
  unfold wsub
  have e : a + SIZE_MOD - b = (a - b) + SIZE_MOD := by omega
  rw [e, Nat.add_mod_right]
  exact Nat.mod_eq_of_lt (by omega)

theorem write_ok {a : ArrayPtr α} {i : Nat} (x : α) (h : i < a.length) :
    ArrayPtr.write a i x = some (a.set i x) := by
  simp [ArrayPtr.write, h]

/-- In bounds the copy loop completes; it keeps the number of slots of the destination and
overwrites exactly the slots `[d, d + n)` with `src[first ..]`.  A loop of no iteration
touches nothing, wherever its pointers are. -/
theorem copyLoop_ok (src : ArrayPtr α) :
    ∀ (n first d : Nat) (dst : ArrayPtr α),
      (n ≠ 0 → first + n ≤ src.length) → (n ≠ 0 → d + n ≤ dst.length) →
      ∃ r, copyLoop src first d n dst = some r ∧ r.length = dst.length ∧
        ∀ j, r[j]? = if d ≤ j ∧ j < d + n then src[first + (j - d)]? else dst[j]? := by
  intro n
  induction n with
  | zero =>
    intro first d dst _ _
    refine ⟨dst, rfl, rfl, ?_⟩
    intro j
    have : ¬ (d ≤ j ∧ j < d + 0) := by omega
    rw [if_neg this]
  | succ n ih =>
    intro first d dst h1 h2
    have h1 := h1 (by omega)
    have h2 := h2 (by omega)
    have hf : first < src.length := by omega
    have hd : d < dst.length := by omega
    obtain ⟨r, hr, hlen, hget⟩ := ih (first + 1) (d + 1) (dst.set d src[first])
      (by omega) (by simp; omega)
    refine ⟨r, ?_, ?_, ?_⟩
    · simp only [copyLoop, ArrayPtr.read, List.getElem?_eq_getElem hf, write_ok _ hd]
      exact hr
    · simpa using hlen
    · intro j
      rw [hget j]
      by_cases hj : d + 1 ≤ j ∧ j < d + 1 + n
      · have hj2 : d ≤ j ∧ j < d + (n + 1) := by omega
        have e : first + 1 + (j - (d + 1)) = first + (j - d) := by omega
        simp [hj, hj2, e]
      · by_cases hjd : j = d
        · subst hjd
          have hj2 : j ≤ j ∧ j < j + (n + 1) := by omega
          simp [hj2, List.getElem?_eq_getElem hf, hd]
        · have hj2 : ¬ (d ≤ j ∧ j < d + (n + 1)) := by omega
          simp only [hj, hj2, if_false]
          rw [List.getElem?_set_ne (by omega)]

/-- The loops of `Erase` are copy loops as long as the counter does not wrap. -/
theorem moveLoop_eq (src : ArrayPtr α) (shift : Nat) :
    ∀ (n i : Nat) (tmp : ArrayPtr α), shift ≤ i → i + n ≤ SIZE_MOD →
      moveLoop src shift i n tmp = copyLoop src i (i - shift) n tmp := by
  intro n
  induction n with
  | zero => intro i tmp _ _; rfl
  | succ n ih =>
    intro i tmp h1 h2
    have hw : wsub i shift = i - shift := wsub_of_le h1 (by omega)
    have e : i + 1 - shift = i - shift + 1 := by omega
    have key : ∀ t, moveLoop src shift (i + 1) n t
        = copyLoop src (i + 1) (i - shift + 1) n t := by
      intro t
      rw [ih (i + 1) t (by omega) (by omega), e]
    simp only [moveLoop, copyLoop, hw, key]

theorem SIZE_MOD_eq : SIZE_MOD = 18446744073709551616 := by
  norm_num [SIZE_MOD]

theorem std_copy_ok (src : ArrayPtr α) (last : Nat) (dst : ArrayPtr α)
    (h1 : last ≤ src.length) (h2 : last ≤ dst.length) :
    ∃ r, std_copy src 0 last dst 0 = some r ∧ r.length = dst.length ∧
      ∀ j, r[j]? = if j < last then src[j]? else dst[j]? := by
  obtain ⟨r, hr, hlen, hget⟩ := copyLoop_ok src last 0 0 dst (by omega) (by omega)
  refine ⟨r, ?_, hlen, ?_⟩
  · simp [std_copy, hr]
  · intro j
    rw [hget j]
    simp

theorem alloc_length (fresh : α) (n : Nat) : (ArrayPtr.alloc fresh n).length = n := by
  simp [ArrayPtr.alloc]

/-- What `PushBack` does on a vector whose buffer holds `capacity_` slots. -/
theorem PushBack_ok (fresh : α) (v : SimpleVector α) (x : α)
    (hinv : v.size_ ≤ v.capacity_) (hbuf : v.capacity_ ≤ v.array_.length)
    (hrep : v.capacity_ < SIZE_MOD) (hov : v.size_ = v.capacity_ → v.capacity_ * 2 < SIZE_MOD) :
    ∃ a, PushBack fresh v x = (.ok (), ⟨if v.capacity_ > v.size_ then v.capacity_
          else if v.capacity_ ≠ 0 then 2 * v.capacity_ else 1, v.size_ + 1, a⟩) ∧
      (if v.capacity_ > v.size_ then v.capacity_
        else if v.capacity_ ≠ 0 then 2 * v.capacity_ else 1) ≤ a.length ∧
      (∀ i, i < v.size_ → a[i]? = v.array_[i]?) ∧ a[v.size_]? = some x := by
  have hM := SIZE_MOD_eq
  by_cases h1 : v.capacity_ > v.size_
  · have hlt : v.size_ < v.array_.length := by omega
    refine ⟨v.array_.set v.size_ x, ?_, ?_, ?_, ?_⟩
    · simp [PushBack, h1, write_ok x hlt, wadd_of_lt (show v.size_ + 1 < SIZE_MOD by omega)]
    · simp [h1]; omega
    · intro i hi
      rw [List.getElem?_set_ne (by omega)]
    · simp [hlt]
  · have hsz : v.size_ = v.capacity_ := by omega
    by_cases h2 : v.capacity_ ≠ 0
    · have hov := hov hsz
      have hw : wmul v.capacity_ 2 = v.capacity_ * 2 := wmul_of_lt hov
      obtain ⟨r, hr, hlen, hget⟩ := std_copy_ok v.array_ v.size_
        (ArrayPtr.alloc fresh (v.capacity_ * 2)) (by omega) (by rw [alloc_length]; omega)
      rw [alloc_length] at hlen
      have hlt : v.size_ < r.length := by omega
      refine ⟨r.set v.size_ x, ?_, ?_, ?_, ?_⟩
      · simp [PushBack, h1, h2, hw, end_, hr, write_ok x hlt,
          wadd_of_lt (show v.size_ + 1 < SIZE_MOD by omega)]
        omega
      · simp [h1, h2]; omega
      · intro i hi
        rw [List.getElem?_set_ne (by omega), hget i, if_pos hi]
      · simp [hlt]
    · have hc : v.capacity_ = 0 := by omega
      have hs : v.size_ = 0 := by omega
      refine ⟨[x], ?_, ?_, ?_, ?_⟩
      · simp [PushBack, hc, hs, end_, std_copy, copyLoop, ArrayPtr.alloc, ArrayPtr.write,
          wadd, SIZE_MOD]
      · simp [hc, hs]
      · intro i hi; omega
      · simp [hs]

/-- The rvalue overload of `PushBack` computes what the lvalue overload computes. -/
theorem PushBack_rv_eq (fresh : α) (v : SimpleVector α) (x : α) :
    PushBack_rv fresh v x = PushBack fresh v x := by
  simp [PushBack_rv, PushBack, std_move]

theorem Insert_rv_eq (fresh : α) (v : SimpleVector α) (pos : Int) (x : α) :
    Insert_rv fresh v pos x = Insert fresh v pos x := by
  simp [Insert_rv, Insert, std_move, std_move_backward]

/-- What `Insert` does at an index `p <= size_`. -/
theorem Insert_ok (fresh : α) (v : SimpleVector α) (p : Nat) (x : α)
    (hinv : v.size_ ≤ v.capacity_) (hst : v.size_ ≤ v.array_.length)
    (hov : v.capacity_ * 2 < SIZE_MOD) (hp : p ≤ v.size_) :
    ∃ a, Insert fresh v (p : Int) x = (.ok (p : Int), ⟨if v.capacity_ = 0 then 1
          else if v.size_ = v.capacity_ then 2 * v.capacity_ else v.capacity_,
          v.size_ + 1, a⟩) ∧
      a.length = (if v.capacity_ = 0 then 1
          else if v.size_ = v.capacity_ then 2 * v.capacity_ else v.capacity_) ∧
      (∀ i, i < p → a[i]? = v.array_[i]?) ∧ a[p]? = some x ∧
      (∀ i, p ≤ i → i < v.size_ → a[i + 1]? = v.array_[i]?) := by
  have hM := SIZE_MOD_eq
  have hchk : ¬ ((0 : Int) > (p : Int) ∨ (v.end_ : Int) < (p : Int)) := by
    unfold end_
    split <;> omega
  by_cases hc : v.capacity_ = 0
  · have hs : v.size_ = 0 := by omega
    have hp0 : p = 0 := by omega
    subst hp0
    refine ⟨[x], ?_, ?_, ?_, ?_, ?_⟩
    · simp [Insert, hc, end_, ArrayPtr.alloc, ArrayPtr.write, hs]
    · simp [hc]
    · intro i hi; omega
    · simp
    · intro i _ hi; omega
  · have he : v.end_ = v.size_ := by simp [end_, hc]
    have hnc : (if v.size_ = v.capacity_ then wmul v.capacity_ 2 else v.capacity_)
        = (if v.size_ = v.capacity_ then 2 * v.capacity_ else v.capacity_) := by
      split
      · rw [wmul_of_lt hov]; omega
      · rfl
    generalize hncdef :
      (if v.size_ = v.capacity_ then 2 * v.capacity_ else v.capacity_) = nc at hnc
    have hlt : v.size_ < nc := by
      rw [← hncdef]; split <;> omega
    obtain ⟨t1, ht1, hl1, hg1⟩ := std_copy_ok v.array_ p (ArrayPtr.alloc fresh nc)
      (by omega) (by rw [alloc_length]; omega)
    rw [alloc_length] at hl1
    have hp1 : p < t1.length := by omega
    obtain ⟨t3, ht3, hl3, hg3⟩ := copyLoop_ok v.array_ (v.size_ - p) p (p + 1)
      (t1.set p x) (by omega) (by simp; omega)
    have hd : 1 + v.size_ - (v.size_ - p) = p + 1 := by omega
    refine ⟨t3, ?_, ?_, ?_, ?_, ?_⟩
    · have hcb : ¬ (v.size_ < p ∨ 1 + v.size_ < v.size_ - p) := by omega
      have hchk2 : ¬ ((0 : Int) > (p : Int) ∨ (v.size_ : Int) < (p : Int)) := by omega
      simp only [Insert, if_neg hchk, if_neg hchk2, if_neg hc, hnc, Int.toNat_ofNat, ht1,
        write_ok x hp1, std_copy_backward, he, if_neg hcb, hd, ht3,
        wadd_of_lt (show v.size_ + 1 < SIZE_MOD by omega)]
    · simp at hl3
      rw [hl3, hl1, if_neg hc]
    · intro i hi
      have h1 : ¬ (p + 1 ≤ i ∧ i < p + 1 + (v.size_ - p)) := by omega
      rw [hg3 i, if_neg h1, List.getElem?_set_ne (by omega), hg1 i, if_pos hi]
    · have h1 : ¬ (p + 1 ≤ p ∧ p < p + 1 + (v.size_ - p)) := by omega
      rw [hg3 p, if_neg h1]
      simp [hp1]
    · intro i hpi hi
      have h1 : p + 1 ≤ i + 1 ∧ i + 1 < p + 1 + (v.size_ - p) := by omega
      have e : p + (i + 1 - (p + 1)) = i := by omega
      rw [hg3 (i + 1), if_pos h1, e]

/-- On a vector with `size_ <= capacity_`, `end()` is `size_` elements after `begin()`. -/
theorem end_eq_size (v : SimpleVector α) (hinv : v.size_ ≤ v.capacity_) :
    v.end_ = v.size_ := by
  unfold end_
  split <;> omega

/-- What `Erase` does at an index `p <= size_` (the end position included). -/
theorem Erase_ok (fresh : α) (v : SimpleVector α) (p : Nat)
    (hinv : v.size_ ≤ v.capacity_) (hst : v.size_ ≤ v.array_.length)
    (hrep : v.capacity_ < SIZE_MOD) (hp : p ≤ v.size_) (hp1 : p + 1 < SIZE_MOD) :
    ∃ a, Erase fresh v (p : Int) = (.ok (p : Int), ⟨v.capacity_, wsub v.size_ 1, a⟩) ∧
      a.length = v.capacity_ ∧
      (∀ i, i < p → a[i]? = v.array_[i]?) ∧
      (∀ i, p ≤ i → i + 1 < v.size_ → a[i]? = v.array_[i + 1]?) := by
  have hM := SIZE_MOD_eq
  have he := end_eq_size v hinv
  have hchk : ¬ ((0 : Int) > (p : Int) ∨ (v.size_ : Int) < (p : Int)) := by omega
  have hw : wadd p 1 = p + 1 := wadd_of_lt (by omega)
  obtain ⟨t1, ht1, hl1, hg1⟩ := copyLoop_ok v.array_ p 0 0 (ArrayPtr.alloc fresh v.capacity_)
    (by omega) (by rw [alloc_length]; omega)
  rw [alloc_length] at hl1
  obtain ⟨t2, ht2, hl2, hg2⟩ := copyLoop_ok v.array_ (v.size_ - (p + 1)) (p + 1) p t1
    (by omega) (by omega)
  have hm1 := moveLoop_eq v.array_ 0 p 0 (ArrayPtr.alloc fresh v.capacity_)
    (by omega) (by omega)
  have hm2 := moveLoop_eq v.array_ 1 (v.size_ - (p + 1)) (p + 1) t1 (by omega) (by omega)
  simp only [Nat.sub_zero, Nat.add_sub_cancel] at hm1 hm2
  refine ⟨t2, ?_, ?_, ?_, ?_⟩
  · simp only [Erase, he, if_neg hchk, Int.toNat_ofNat, hm1, ht1, hw, hm2, ht2]
  · rw [hl2, hl1]
  · intro i hi
    have h1 : ¬ (p ≤ i ∧ i < p + (v.size_ - (p + 1))) := by omega
    have h2 : 0 ≤ i ∧ i < 0 + p := by omega
    rw [hg2 i, if_neg h1, hg1 i, if_pos h2]
    simp
  · intro i hpi hi
    have h1 : p ≤ i ∧ i < p + (v.size_ - (p + 1)) := by omega
    have e : p + 1 + (i - p) = i + 1 := by omega
    rw [hg2 i, if_pos h1, e]

/-- Method `Insert` throws `std::out_of_range` exactly when its range check fails, and then
leaves the vector as it was. -/
theorem Insert_out_of_range_iff (fresh : α) (v : SimpleVector α) (pos : Int) (x : α) :
    ((Insert fresh v pos x).1 = .error .out_of_range ↔ (pos < 0 ∨ (v.end_ : Int) < pos)) ∧
    ((Insert fresh v pos x).1 = .error .out_of_range → (Insert fresh v pos x).2 = v) := by
  by_cases h : (0 : Int) > pos ∨ (v.end_ : Int) < pos
  · have e : Insert fresh v pos x = (.error .out_of_range, v) := by
      simp only [Insert, if_pos h]
    rw [e]
    exact ⟨⟨fun _ => h, fun _ => rfl⟩, fun _ => rfl⟩
  · have hne : (Insert fresh v pos x).1 ≠ .error .out_of_range := by
      simp only [Insert, if_neg h]
      split_ifs <;> (repeat' split) <;> simp
    exact ⟨⟨fun e => absurd e hne, fun e => absurd e h⟩, fun e => absurd e hne⟩

/-- Method `Erase` throws `std::out_of_range` exactly when its range check fails, and then leaves
the vector as it was. -/
theorem Erase_out_of_range_iff (fresh : α) (v : SimpleVector α) (pos : Int) :
    ((Erase fresh v pos).1 = .error .out_of_range ↔ (pos < 0 ∨ (v.end_ : Int) < pos)) ∧
    ((Erase fresh v pos).1 = .error .out_of_range → (Erase fresh v pos).2 = v) := by
  by_cases h : (0 : Int) > pos ∨ (v.end_ : Int) < pos
  · have e : Erase fresh v pos = (.error .out_of_range, v) := by
      simp only [Erase, if_pos h]
    rw [e]
    exact ⟨⟨fun _ => h, fun _ => rfl⟩, fun _ => rfl⟩
  · have hne : (Erase fresh v pos).1 ≠ .error .out_of_range := by
      simp only [Erase, if_neg h]
      (repeat' split) <;> simp
    exact ⟨⟨fun e => absurd e hne, fun e => absurd e h⟩, fun e => absurd e hne⟩

/-- Method `At` throws `std::out_of_range` exactly when `index >= size_`, never changes the
vector, and returns the stored element otherwise. -/
theorem At_cases (v : SimpleVector α) (i : Nat) :
    ((At v i).1 = .error .out_of_range ↔ i ≥ v.size_) ∧ (At v i).2 = v ∧
    (i < v.size_ → ∀ y, v.array_[i]? = some y → (At v i).1 = .ok y) := by
  by_cases h : i ≥ v.size_
  · simp [At, h]
  · refine ⟨?_, ?_, ?_⟩
    · simp only [At, if_neg h]
      split <;> simp [h]
    · simp only [At, if_neg h]
      split <;> rfl
    · intro _ y hy
      simp [At, h, ArrayPtr.read, hy]

/-- Pushing a list that ends in `x` is pushing the list and then `x`. -/
theorem PushBack_all_snoc (fresh : α) (xs : List α) (x : α) :
    ∀ (v v1 : SimpleVector α), PushBack_all fresh v xs = (.ok (), v1) →
      PushBack_all fresh v (xs ++ [x]) = PushBack fresh v1 x := by
  induction xs with
  | nil =>
    intro v v1 h
    simp only [PushBack_all, Prod.mk.injEq, true_and] at h
    subst h
    simp only [List.nil_append, PushBack_all]
    rcases hr : PushBack fresh v x with ⟨r, w⟩
    cases r <;> rfl
  | cons y ys ih =>
    intro v v1 h
    simp only [List.cons_append, PushBack_all] at h ⊢
    rcases hr : PushBack fresh v y with ⟨r, w⟩
    rw [hr] at h
    cases r with
    | error e => simp at h
    | ok u => exact ih w v1 h

/-- After the values of `xs` were pushed onto an empty vector: the size is their number,
they are stored in order, the buffer holds `capacity_` slots, and the capacity is 0 for
no push and otherwise the power of two `c` with `length <= c < 2 * length`. -/
theorem PushBack_all_ok (fresh : α) (xs : List α) :
    xs.length ≤ 2 ^ 63 →
    ∃ c a, PushBack_all fresh ctor_default xs = (.ok (), ⟨c, xs.length, a⟩) ∧
      c ≤ a.length ∧ (∀ i, i < xs.length → a[i]? = xs[i]?) ∧
      ((xs.length = 0 ∧ c = 0) ∨ ∃ j, c = 2 ^ j ∧ xs.length ≤ 2 ^ j ∧ 2 ^ j < 2 * xs.length) := by
  have hM := SIZE_MOD_eq
  induction xs using List.reverseRecOn with
  | nil =>
    intro _
    exact ⟨0, [], rfl, by simp, by simp, Or.inl ⟨rfl, rfl⟩⟩
  | append_singleton xs x ih =>
    intro hN
    simp only [List.length_append, List.length_singleton] at hN ⊢
    obtain ⟨c, a, hrun, hbuf, hel, hcap⟩ := ih (by omega)
    have hinv : xs.length ≤ c := by
      rcases hcap with ⟨h0, _⟩ | ⟨j, hj, hle, _⟩ <;> omega
    have hrep : c < SIZE_MOD := by
      rcases hcap with ⟨_, h0⟩ | ⟨j, hj, _, hlt⟩ <;> omega
    obtain ⟨a1, hpush, hbuf1, hpre, hlast⟩ := PushBack_ok fresh ⟨c, xs.length, a⟩ x hinv hbuf
      hrep (by intro h; dsimp only at h ⊢; omega)
    dsimp only at hpush hbuf1 hpre hlast
    refine ⟨_, a1, ?_, hbuf1, ?_, ?_⟩
    · rw [PushBack_all_snoc fresh xs x _ _ hrun, hpush]
    · intro i hi
      by_cases hi2 : i < xs.length
      · rw [hpre i hi2, hel i hi2, List.getElem?_append_left hi2]
      · have e : i = xs.length := by omega
        subst e
        rw [hlast]
        simp
    · right
      by_cases h1 : c > xs.length
      · rcases hcap with ⟨_, h0⟩ | ⟨j, hj, hle, hlt⟩
        · omega
        · exact ⟨j, by rw [if_pos h1]; exact hj, by omega, by omega⟩
      · rcases hcap with ⟨hn0, h0⟩ | ⟨j, hj, hle, hlt⟩
        · exact ⟨0, by simp [h0, hn0], by simp [hn0], by simp [hn0]⟩
        · have hc0 : c ≠ 0 := by
            have := Nat.pos_pow_of_pos j (show 0 < 2 by omega)
            omega
          refine ⟨j + 1, ?_, ?_, ?_⟩
          · rw [if_neg h1, if_pos hc0, hj, pow_succ]
            omega
          · rw [pow_succ]; omega
          · rw [pow_succ]; omega

/-- A copy loop of at least one iteration whose destination range ends after the last
slot of the destination does not complete. -/
theorem copyLoop_overrun (src : ArrayPtr α) :
    ∀ (n first d : Nat) (dst : ArrayPtr α), n ≠ 0 → dst.length < d + n →
      copyLoop src first d n dst = none := by
  intro n
  induction n with
  | zero => intro first d dst h0 _; exact absurd rfl h0
  | succ n ih =>
    intro first d dst _ h
    simp only [copyLoop]
    cases ArrayPtr.read src first with
    | none => rfl
    | some x =>
      by_cases hd : d < dst.length
      · simp only [write_ok x hd]
        exact ih (first + 1) (d + 1) (dst.set d x) (by omega) (by simp; omega)
      · simp [ArrayPtr.write, hd]

/-- What `Resize` does for a new size strictly between the size and the capacity, on a
buffer that ends before slot `size_ + (size_ - new_size)` (the difference in `size_t`). -/
theorem Resize_within_overrun (fresh : α) (v : SimpleVector α) (n : Nat)
    (h1 : v.size_ < n) (h2 : n < v.capacity_) (h3 : wsub v.size_ n ≠ 0)
    (h4 : v.array_.length < v.size_ + wsub v.size_ n) :
    Resize fresh v n = (.error .out_of_bounds, v) := by
  have h5 : ¬ (n < v.size_) := by omega
  have h6 : ¬ (wsub v.size_ n < 0) := by omega
  simp only [Resize, if_neg h5, if_pos h2, std_move, std_copy, if_neg h6, Nat.sub_zero]
  rw [copyLoop_overrun _ _ _ _ _ h3 h4]

/-- What `Resize` does for a new size above the capacity. -/
theorem Resize_grow_ok (fresh : α) (v : SimpleVector α) (n : Nat)
    (hinv : v.size_ ≤ v.capacity_) (hst : v.size_ ≤ v.array_.length)
    (hn : v.capacity_ ≤ n) :
    ∃ a, Resize fresh v n = (.ok (), ⟨n, n, a⟩) ∧ a.length = n ∧
      (∀ i, i < v.size_ → a[i]? = v.array_[i]?) ∧
      (∀ i, v.size_ ≤ i → i < n → a[i]? = some fresh) := by
  by_cases hs : n < v.size_
  · omega
  by_cases hc : n < v.capacity_
  · omega
  have he := end_eq_size v hinv
  obtain ⟨r, hr, hlen, hget⟩ := std_copy_ok v.array_ v.size_ (ArrayPtr.alloc fresh n)
    (by omega) (by rw [alloc_length]; omega)
  rw [alloc_length] at hlen
  refine ⟨r, ?_, hlen, ?_, ?_⟩
  · simp only [Resize, if_neg hs, if_neg hc, std_move, he, hr]
  · intro i hi
    rw [hget i, if_pos hi]
  · intro i h1 h2
    rw [hget i, if_neg (by omega)]
    simp [ArrayPtr.alloc, h2]

/-- What the copy constructor builds: the source's counters and a buffer of exactly
`size_` slots holding the source's elements. -/
theorem ctor_copy_ok (fresh : α) (src : SimpleVector α)
    (hinv : src.size_ ≤ src.capacity_) (hst : src.size_ ≤ src.array_.length) :
    ctor_copy fresh src
      = (.ok (), ⟨src.capacity_, src.size_, src.array_.take src.size_⟩, src) := by
  have he := end_eq_size src hinv
  obtain ⟨r, hr, hlen, hget⟩ := std_copy_ok src.array_ src.size_
    (ArrayPtr.alloc fresh src.size_) (by omega) (by rw [alloc_length])
  rw [alloc_length] at hlen
  have hrt : r = src.array_.take src.size_ := by
    apply List.ext_getElem?
    intro j
    rw [hget j, List.getElem?_take]
    split
    · rfl
    · simp [ArrayPtr.alloc]
      omega
  simp only [ctor_copy, he, hr, hrt]

/-- A range is not lexicographically less than itself when no element is less than
itself. -/
theorem lexicographical_compare_self [LT α] [@DecidableRel α (· < ·)]
    (hirr : ∀ a : α, ¬ a < a) (l : List α) : lexicographical_compare l l = false := by
  induction l with
  | nil => rfl
  | cons a l ih => simp [lexicographical_compare, hirr a, ih]

/-- The range `[cbegin(), cend())` of a vector with `size_ <= capacity_` that stores its
elements is the list of its first `size_` slots. -/
theorem range_ok (v : SimpleVector α) (hinv : v.size_ ≤ v.capacity_)
    (hst : v.size_ ≤ v.array_.length) : range v = some (v.array_.take v.size_) := by
  simp [range, end_eq_size v hinv, hst]

/-- Two lists of first slots are equal exactly when the sizes are equal and the slots
below the size agree. -/
theorem take_eq_take_iff (l r : List α) (n m : Nat) (hn : n ≤ l.length) (hm : m ≤ r.length) :
    l.take n = r.take m ↔ n = m ∧ ∀ i, i < n → l[i]? = r[i]? := by
  constructor
  · intro h
    have hlen : n = m := by
      have := congrArg List.length h
      simp only [List.length_take] at this
      omega
    refine ⟨hlen, ?_⟩
    intro i hi
    have h1 := congrArg (fun t => t[i]?) h
    simp only [List.getElem?_take] at h1
    rw [if_pos hi, if_pos (by omega)] at h1
    exact h1
  · rintro ⟨rfl, h⟩
    apply List.ext_getElem?
    intro i
    simp only [List.getElem?_take]
    split
    · exact h i (by assumption)
    · rfl

/-- Over a total order, neither of two ranges is lexicographically less than the other
exactly when they are equal. -/
theorem lexicographical_compare_both_false [LinearOrder α] :
    ∀ (l r : List α),
      (lexicographical_compare l r = false ∧ lexicographical_compare r l = false) ↔ l = r := by
  intro l
  induction l with
  | nil =>
    intro r
    cases r with
    | nil => simp [lexicographical_compare]
    | cons b r => simp [lexicographical_compare]
  | cons a l ih =>
    intro r
    cases r with
    | nil => simp [lexicographical_compare]
    | cons b r =>
      rcases lt_trichotomy a b with h | h | h
      · have h2 : ¬ b < a := not_lt.mpr (le_of_lt h)
        simp [lexicographical_compare, h, ne_of_lt h]
      · subst h
        simp [lexicographical_compare, ih r]
      · have h2 : ¬ a < b := not_lt.mpr (le_of_lt h)
        simp [lexicographical_compare, h, h2, ne_of_gt h]

/-- Over a total order, a range is lexicographically less than another exactly when it is
a proper prefix of it, or at the first index where they differ its element is the
smaller one. -/
theorem lexicographical_compare_iff [LinearOrder α] :
    ∀ (l r : List α),
      lexicographical_compare l r = true ↔
        ((l.length < r.length ∧ ∀ i, i < l.length → l[i]? = r[i]?) ∨
         ∃ k, k < l.length ∧ k < r.length ∧ (∀ i, i < k → l[i]? = r[i]?) ∧
           ∃ x y, l[k]? = some x ∧ r[k]? = some y ∧ x < y) := by
  intro l
  induction l with
  | nil =>
    intro r
    cases r with
    | nil => simp [lexicographical_compare]
    | cons b r => simp [lexicographical_compare]
  | cons a l ih =>
    intro r
    cases r with
    | nil => simp [lexicographical_compare]
    | cons b r =>
      rcases lt_trichotomy a b with h | h | h
      · have e : lexicographical_compare (a :: l) (b :: r) = true := by
          simp [lexicographical_compare, h]
        rw [e]
        refine ⟨fun _ => Or.inr ⟨0, by simp, by simp, ?_, a, b, by simp, by simp, h⟩, fun _ => rfl⟩
        intro i hi; omega
      · subst h
        have e : lexicographical_compare (a :: l) (a :: r) = lexicographical_compare l r := by
          simp [lexicographical_compare]
        rw [e, ih r]
        constructor
        · rintro (⟨h1, h2⟩ | ⟨k, hk1, hk2, hk3, x, y, hx, hy, hxy⟩)
          · left
            refine ⟨by simp; omega, ?_⟩
            intro i hi
            cases i with
            | zero => simp
            | succ i =>
              simp only [List.getElem?_cons_succ]
              exact h2 i (by simp at hi; omega)
          · right
            refine ⟨k + 1, by simp; omega, by simp; omega, ?_, x, y, by simpa using hx,
              by simpa using hy, hxy⟩
            intro i hi
            cases i with
            | zero => simp
            | succ i =>
              simp only [List.getElem?_cons_succ]
              exact hk3 i (by omega)
        · rintro (⟨h1, h2⟩ | ⟨k, hk1, hk2, hk3, x, y, hx, hy, hxy⟩)
          · left
            refine ⟨by simp at h1; omega, ?_⟩
            intro i hi
            have := h2 (i + 1) (by simp; omega)
            simpa using this
          · right
            cases k with
            | zero =>
              simp at hx hy
              rw [← hx, ← hy] at hxy
              exact absurd hxy (lt_irrefl a)
            | succ k =>
              refine ⟨k, by simp at hk1; omega, by simp at hk2; omega, ?_, x, y,
                by simpa using hx, by simpa using hy, hxy⟩
              intro i hi
              have := hk3 (i + 1) (by omega)
              simpa using this
      · have h2 : ¬ a < b := not_lt.mpr (le_of_lt h)
        have e : lexicographical_compare (a :: l) (b :: r) = false := by
          simp [lexicographical_compare, h, h2]
        rw [e]
        constructor
        · intro hf; exact absurd hf (by simp)
        · rintro (⟨_, h3⟩ | ⟨k, _, _, hk3, x, y, hx, hy, hxy⟩)
          · have := h3 0 (by simp)
            simp at this
            exact absurd this (ne_of_gt h)
          · cases k with
            | zero =>
              simp at hx hy
              rw [← hx, ← hy] at hxy
              exact absurd hxy h2
            | succ k =>
              have := hk3 0 (by omega)
              simp at this
              exact absurd this (ne_of_gt h)

/-- On vectors with `size_ <= capacity_` that store their elements, `operator<` completes
and compares the lists of the first `size_` slots. -/
theorem op_lt_ok [LT α] [@DecidableRel α (· < ·)] (a b : SimpleVector α)
    (ha1 : a.size_ ≤ a.capacity_) (ha2 : a.size_ ≤ a.array_.length)
    (hb1 : b.size_ ≤ b.capacity_) (hb2 : b.size_ ≤ b.array_.length) :
    op_lt a b = .ok (lexicographical_compare (a.array_.take a.size_)
      (b.array_.take b.size_)) := by
  simp only [op_lt, range_ok a ha1 ha2, range_ok b hb1 hb2]

/-- On vectors with `size_ <= capacity_` that store their elements, `operator==` completes
with "neither is less than the other". -/
theorem op_eq_ok [LT α] [@DecidableRel α (· < ·)] (a b : SimpleVector α)
    (ha1 : a.size_ ≤ a.capacity_) (ha2 : a.size_ ≤ a.array_.length)
    (hb1 : b.size_ ≤ b.capacity_) (hb2 : b.size_ ≤ b.array_.length) :
    op_eq a b = .ok
      (!(lexicographical_compare (a.array_.take a.size_) (b.array_.take b.size_)) &&
       !(lexicographical_compare (b.array_.take b.size_) (a.array_.take a.size_))) := by
  simp only [op_eq, op_lt_ok a b ha1 ha2 hb1 hb2, op_lt_ok b a hb1 hb2 ha1 ha2]
  cases lexicographical_compare (a.array_.take a.size_) (b.array_.take b.size_) <;> rfl

/-- On vectors with `size_ <= capacity_` that store their elements, `operator<` is true
exactly when the elements of the left one are a proper prefix of those of the right
one, or the left element is the smaller one at the first index where they differ. -/
theorem op_lt_iff [LinearOrder α] (a b : SimpleVector α)
    (ha1 : a.size_ ≤ a.capacity_) (ha2 : a.size_ ≤ a.array_.length)
    (hb1 : b.size_ ≤ b.capacity_) (hb2 : b.size_ ≤ b.array_.length) :
    op_lt a b = .ok true ↔
      ((a.size_ < b.size_ ∧ ∀ i, i < a.size_ → a.array_[i]? = b.array_[i]?) ∨
       ∃ k, k < a.size_ ∧ k < b.size_ ∧ (∀ i, i < k → a.array_[i]? = b.array_[i]?) ∧
         ∃ x y, a.array_[k]? = some x ∧ b.array_[k]? = some y ∧ x < y) := by
  have hla : (a.array_.take a.size_).length = a.size_ := by
    rw [List.length_take]; omega
  have hlb : (b.array_.take b.size_).length = b.size_ := by
    rw [List.length_take]; omega
  have hga : ∀ i, i < a.size_ → (a.array_.take a.size_)[i]? = a.array_[i]? :=
    fun i hi => List.getElem?_take_of_lt hi
  have hgb : ∀ i, i < b.size_ → (b.array_.take b.size_)[i]? = b.array_[i]? :=
    fun i hi => List.getElem?_take_of_lt hi
  rw [op_lt_ok a b ha1 ha2 hb1 hb2]
  have hiff := lexicographical_compare_iff (a.array_.take a.size_) (b.array_.take b.size_)
  rw [hla, hlb] at hiff
  constructor
  · intro h
    have h1 : lexicographical_compare (a.array_.take a.size_) (b.array_.take b.size_) = true := by
      injection h
    rcases hiff.mp h1 with ⟨h2, h3⟩ | ⟨k, hk1, hk2, hk3, x, y, hx, hy, hxy⟩
    · left
      refine ⟨h2, ?_⟩
      intro i hi
      rw [← hga i hi, ← hgb i (by omega)]
      exact h3 i hi
    · right
      refine ⟨k, hk1, hk2, ?_, x, y, ?_, ?_, hxy⟩
      · intro i hi
        rw [← hga i (by omega), ← hgb i (by omega)]
        exact hk3 i hi
      · rw [← hga k hk1]; exact hx
      · rw [← hgb k hk2]; exact hy
  · intro h
    have h1 : lexicographical_compare (a.array_.take a.size_) (b.array_.take b.size_) = true := by
      apply hiff.mpr
      rcases h with ⟨h2, h3⟩ | ⟨k, hk1, hk2, hk3, x, y, hx, hy, hxy⟩
      · left
        refine ⟨h2, ?_⟩
        intro i hi
        rw [hga i hi, hgb i (by omega)]
        exact h3 i hi
      · right
        refine ⟨k, hk1, hk2, ?_, x, y, ?_, ?_, hxy⟩
        · intro i hi
          rw [hga i (by omega), hgb i (by omega)]
          exact hk3 i hi
        · rw [hga k hk1]; exact hx
        · rw [hgb k hk2]; exact hy
    rw [h1]

/-- What `Reserve` does: nothing for a request within the capacity, and otherwise a new
buffer of exactly the requested number of slots holding the elements. -/
theorem Reserve_ok (fresh : α) (v : SimpleVector α) (n : Nat)
    (hinv : v.size_ ≤ v.capacity_) (hst : v.size_ ≤ v.array_.length) :
    (n ≤ v.capacity_ → Reserve fresh v n = (.ok (), v)) ∧
    (v.capacity_ < n → ∃ a, Reserve fresh v n = (.ok (), ⟨n, v.size_, a⟩) ∧ a.length = n ∧
      ∀ i, i < v.size_ → a[i]? = v.array_[i]?) := by
  constructor
  · intro h
    have h1 : ¬ (n > v.capacity_) := by omega
    simp only [Reserve, if_neg h1]
  · intro h
    have he := end_eq_size v hinv
    obtain ⟨r, hr, hlen, hget⟩ := std_copy_ok v.array_ v.size_ (ArrayPtr.alloc fresh n)
      (by omega) (by rw [alloc_length]; omega)
    rw [alloc_length] at hlen
    refine ⟨r, ?_, hlen, ?_⟩
    · have h1 : n > v.capacity_ := h
      simp only [Reserve, if_pos h1, he, hr]
    · intro i hi
      rw [hget i, if_pos hi]

/-- The vector the copy constructor builds compares equal to its source. -/
theorem op_eq_copy [LT α] [@DecidableRel α (· < ·)] (hirr : ∀ a : α, ¬ a < a)
    (src : SimpleVector α) (hinv : src.size_ ≤ src.capacity_)
    (hst : src.size_ ≤ src.array_.length) :
    op_eq (⟨src.capacity_, src.size_, src.array_.take src.size_⟩ : SimpleVector α) src
      = .ok true := by
  have hlen : src.size_ ≤ (src.array_.take src.size_).length := by
    rw [List.length_take]; omega
  rw [op_eq_ok (⟨src.capacity_, src.size_, src.array_.take src.size_⟩ : SimpleVector α) src
    hinv hlen hinv hst]
  simp only [List.take_take, min_self, lexicographical_compare_self hirr]
  rfl

/-! ## The claims -/

/-- What both overloads of `PushBack` do when the buffer holds `capacity_` slots: on a
vector with `size_ <= capacity_` whose buffer holds `capacity_` slots, and
with `capacity_ * 2` representable in `size_t`, both overloads of `PushBack` complete,
leave size `size_ + 1`, keep the elements at the indices below the old size, put the
pushed value at index old size, and leave the capacity unchanged when it exceeded the
size, doubled when the vector was full and non-empty, and 1 when it was 0. -/
theorem PushBack_appends_in_buffer (fresh : α) (v : SimpleVector α) (x : α)
    (hinv : v.size_ ≤ v.capacity_) (hbuf : v.capacity_ ≤ v.array_.length)
    (hov : v.capacity_ * 2 < SIZE_MOD) :
    ∀ r, (r = PushBack fresh v x ∨ r = PushBack_rv fresh v x) →
      r.1 = .ok () ∧ r.2.size_ = v.size_ + 1 ∧
      (∀ i, i < v.size_ → r.2.array_[i]? = v.array_[i]?) ∧
      r.2.array_[v.size_]? = some x ∧
      (v.capacity_ > v.size_ → r.2.capacity_ = v.capacity_) ∧
      (v.capacity_ = v.size_ → v.size_ > 0 → r.2.capacity_ = 2 * v.capacity_) ∧
      (v.capacity_ = 0 → r.2.capacity_ = 1) := by
  intro r hr
  have hr1 : r = PushBack fresh v x := by
    rcases hr with h | h
    · exact h
    · rw [h, PushBack_rv_eq]
  obtain ⟨a, ha, _, hpre, hlast⟩ := PushBack_ok fresh v x hinv hbuf (by omega) (fun _ => hov)
  rw [hr1, ha]
  refine ⟨rfl, rfl, hpre, hlast, ?_, ?_, ?_⟩
  · intro h; simp [h]
  · intro h1 h2
    have h3 : ¬ v.capacity_ > v.size_ := by omega
    have h4 : v.capacity_ ≠ 0 := by omega
    simp [h3, h4]
  · intro h
    have h3 : ¬ v.capacity_ > v.size_ := by omega
    simp [h3, h]

/-- At the full vector [1, 2] of capacity 2 (two slots) and the value 3: the rvalue
overload of `PushBack` leaves size 3, capacity 4 and the value 3 at index 2. -/
theorem PushBack_appends_in_buffer_example :
    (2 ≤ 2 ∧ 2 ≤ [1, 2].length ∧ 2 * 2 < SIZE_MOD) ∧
    (PushBack_rv (0 : Nat) ⟨2, 2, [1, 2]⟩ 3).1 = .ok () ∧
    (PushBack_rv (0 : Nat) ⟨2, 2, [1, 2]⟩ 3).2.size_ = 3 ∧
    (PushBack_rv (0 : Nat) ⟨2, 2, [1, 2]⟩ 3).2.array_[2]? = some 3 ∧
    (PushBack_rv (0 : Nat) ⟨2, 2, [1, 2]⟩ 3).2.capacity_ = 4 := by
  have h := PushBack_appends_in_buffer (0 : Nat) ⟨2, 2, [1, 2]⟩ 3 (by decide) (by decide)
    (by norm_num [SIZE_MOD]) _ (Or.inr rfl)
  exact ⟨⟨by decide, by decide, by norm_num [SIZE_MOD]⟩, h.1, h.2.1, h.2.2.2.1,
    h.2.2.2.2.2.1 rfl (by decide)⟩

/-- C1, failing input: `Reserve(4); PushBack(1)` on a default-constructed vector gives
[1] with capacity 4 in a buffer of 4 slots; its copy has `size_ = 1 <= capacity_ = 4`
(and `capacity_ * 2` is representable) in a buffer of 1 slot; on the copy both overloads
of `PushBack` take the in-place branch and write `array_[1]`, outside the buffer: the
call does not yield a vector of size 2 with the pushed value at index 1. -/
theorem C1_PushBack_on_copy_with_headroom_overruns :
    (PushBack (0 : Int) (Reserve (0 : Int) ctor_default 4).2 1).2 = ⟨4, 1, [1, 0, 0, 0]⟩ ∧
    (ctor_copy (0 : Int) ⟨4, 1, [1, 0, 0, 0]⟩).2.1 = ⟨4, 1, [1]⟩ ∧
    ((⟨4, 1, [1]⟩ : SimpleVector Int).size_ ≤ (⟨4, 1, [1]⟩ : SimpleVector Int).capacity_ ∧
      (⟨4, 1, [1]⟩ : SimpleVector Int).capacity_ * 2 < SIZE_MOD) ∧
    PushBack (0 : Int) ⟨4, 1, [1]⟩ 2 = (.error .out_of_bounds, ⟨4, 1, [1]⟩) ∧
    PushBack_rv (0 : Int) ⟨4, 1, [1]⟩ 2 = (.error .out_of_bounds, ⟨4, 1, [1]⟩) ∧
    (PushBack (0 : Int) ⟨4, 1, [1]⟩ 2).2.array_[1]? = none := by
  refine ⟨?_, ?_, ⟨by decide, by norm_num [SIZE_MOD]⟩, ?_, ?_, ?_⟩
  · simp [Reserve, PushBack, ctor_default, end_, std_copy, copyLoop, ArrayPtr.alloc,
      ArrayPtr.write, wadd, SIZE_MOD, List.replicate]
  · simp [ctor_copy, end_, std_copy, copyLoop, ArrayPtr.alloc, ArrayPtr.read, ArrayPtr.write,
      List.replicate]
  · simp [PushBack, ArrayPtr.write]
  · simp [PushBack_rv, ArrayPtr.write]
  · simp [PushBack, ArrayPtr.write]

/-- C2: on a vector with `size_ <= capacity_` that stores its elements, with
`capacity_ * 2` representable in `size_t`, both overloads of `Insert` at an index
`p <= size_` complete, return position `p`, leave size `size_ + 1`, keep the elements
below `p`, put the value at `p`, move every element at `i >= p` to `i + 1`, and leave
the capacity doubled when the vector was full with capacity above 0, 1 when the
capacity was 0, and unchanged otherwise. -/
theorem C2_Insert_shifts_right (fresh : α) (v : SimpleVector α) (p : Nat) (x : α)
    (hinv : v.size_ ≤ v.capacity_) (hst : v.size_ ≤ v.array_.length)
    (hov : v.capacity_ * 2 < SIZE_MOD) (hp : p ≤ v.size_) :
    ∀ r, (r = Insert fresh v (p : Int) x ∨ r = Insert_rv fresh v (p : Int) x) →
      r.1 = .ok (p : Int) ∧ r.2.size_ = v.size_ + 1 ∧
      (∀ i, i < p → r.2.array_[i]? = v.array_[i]?) ∧
      r.2.array_[p]? = some x ∧
      (∀ i, p ≤ i → i < v.size_ → r.2.array_[i + 1]? = v.array_[i]?) ∧
      (v.size_ = v.capacity_ → v.capacity_ > 0 → r.2.capacity_ = 2 * v.capacity_) ∧
      (v.capacity_ = 0 → r.2.capacity_ = 1) ∧
      (v.size_ ≠ v.capacity_ → r.2.capacity_ = v.capacity_) := by
  intro r hr
  have hr1 : r = Insert fresh v (p : Int) x := by
    rcases hr with h | h
    · exact h
    · rw [h, Insert_rv_eq]
  obtain ⟨a, ha, _, hpre, hat, hpost⟩ := Insert_ok fresh v p x hinv hst hov hp
  rw [hr1, ha]
  refine ⟨rfl, rfl, hpre, hat, hpost, ?_, ?_, ?_⟩
  · intro h1 h2
    have h3 : v.capacity_ ≠ 0 := by omega
    simp [h3, h1]
  · intro h; simp [h]
  · intro h
    have h3 : v.capacity_ ≠ 0 := by omega
    simp [h3, h]

/-- C2, at the vector [1, 2, 3] of capacity 4, index 1 and the value 99: the result is
[1, 99, 2, 3] with size 4 and capacity 4, and the position returned is 1. -/
theorem C2_Insert_shifts_right_witness :
    (3 ≤ 4 ∧ 3 ≤ [1, 2, 3, 0].length ∧ 4 * 2 < SIZE_MOD ∧ 1 ≤ 3) ∧
    (Insert (0 : Nat) ⟨4, 3, [1, 2, 3, 0]⟩ 1 99).1 = .ok 1 ∧
    (Insert (0 : Nat) ⟨4, 3, [1, 2, 3, 0]⟩ 1 99).2.size_ = 4 ∧
    (Insert (0 : Nat) ⟨4, 3, [1, 2, 3, 0]⟩ 1 99).2.array_[1]? = some 99 ∧
    (Insert (0 : Nat) ⟨4, 3, [1, 2, 3, 0]⟩ 1 99).2.array_[3]? = some 3 ∧
    (Insert (0 : Nat) ⟨4, 3, [1, 2, 3, 0]⟩ 1 99).2.capacity_ = 4 := by
  have h := C2_Insert_shifts_right (0 : Nat) ⟨4, 3, [1, 2, 3, 0]⟩ 1 99 (by decide)
    (by decide) (by norm_num [SIZE_MOD]) (by decide) _ (Or.inl rfl)
  exact ⟨⟨by decide, by decide, by norm_num [SIZE_MOD], by decide⟩, h.1, h.2.1,
    h.2.2.2.1, h.2.2.2.2.1 2 (by decide) (by decide), h.2.2.2.2.2.2.2 (by decide)⟩

/-- C3: on a vector with `size_ <= capacity_` that stores its elements, `Erase` at an
index `p < size_` completes, leaves size `size_ - 1` and the capacity unchanged, keeps
the elements below `p` and moves every element at `i + 1 > p` to `i`. -/
theorem C3_Erase_shifts_left (fresh : α) (v : SimpleVector α) (p : Nat)
    (hinv : v.size_ ≤ v.capacity_) (hst : v.size_ ≤ v.array_.length)
    (hrep : v.capacity_ < SIZE_MOD) (hp : p < v.size_) :
    (Erase fresh v (p : Int)).1 = .ok (p : Int) ∧
    (Erase fresh v (p : Int)).2.size_ = v.size_ - 1 ∧
    (Erase fresh v (p : Int)).2.size_ + 1 = v.size_ ∧
    (Erase fresh v (p : Int)).2.capacity_ = v.capacity_ ∧
    (∀ i, i < p → (Erase fresh v (p : Int)).2.array_[i]? = v.array_[i]?) ∧
    (∀ i, p ≤ i → i < v.size_ - 1 →
      (Erase fresh v (p : Int)).2.array_[i]? = v.array_[i + 1]?) := by
  obtain ⟨a, ha, _, hpre, hpost⟩ := Erase_ok fresh v p hinv hst hrep (by omega) (by omega)
  have hw : wsub v.size_ 1 = v.size_ - 1 := wsub_of_le (by omega) (by omega)
  rw [ha, hw]
  refine ⟨rfl, rfl, ?_, rfl, hpre, ?_⟩
  · show v.size_ - 1 + 1 = v.size_
    omega
  · intro i h1 h2
    exact hpost i h1 (by omega)

/-- C3, at the vector [1, 99, 2, 3] of capacity 4 and index 0: the result is [99, 2, 3]
with size 3 and capacity 4. -/
theorem C3_Erase_shifts_left_witness :
    (4 ≤ 4 ∧ 4 ≤ [1, 99, 2, 3].length ∧ 4 < SIZE_MOD ∧ 0 < 4) ∧
    (Erase (0 : Nat) ⟨4, 4, [1, 99, 2, 3]⟩ 0).1 = .ok 0 ∧
    (Erase (0 : Nat) ⟨4, 4, [1, 99, 2, 3]⟩ 0).2.size_ = 3 ∧
    (Erase (0 : Nat) ⟨4, 4, [1, 99, 2, 3]⟩ 0).2.capacity_ = 4 ∧
    (Erase (0 : Nat) ⟨4, 4, [1, 99, 2, 3]⟩ 0).2.array_[0]? = some 99 ∧
    (Erase (0 : Nat) ⟨4, 4, [1, 99, 2, 3]⟩ 0).2.array_[2]? = some 3 := by
  have h := C3_Erase_shifts_left (0 : Nat) ⟨4, 4, [1, 99, 2, 3]⟩ 0 (by decide)
    (by decide) (by norm_num [SIZE_MOD]) (by decide)
  exact ⟨⟨by decide, by decide, by norm_num [SIZE_MOD], by decide⟩, h.1, h.2.1, h.2.2.2.1,
    h.2.2.2.2.2 0 (by decide) (by decide), h.2.2.2.2.2 2 (by decide) (by decide)⟩

/-- C4: on a vector with `size_ <= capacity_` that stores its elements, `At(i)` reports
`std::out_of_range` exactly when `i >= size_` and returns the element at index `i`
otherwise; `Insert(pos, x)` (both overloads) and `Erase(pos)` report it exactly when
`pos` is outside `[0, size_]`; and whenever one of them reports it, the size, the
capacity and the buffer are what they were before the call. -/
theorem C4_out_of_range_exact_and_atomic (fresh : α) (v : SimpleVector α)
    (hinv : v.size_ ≤ v.capacity_) (hst : v.size_ ≤ v.array_.length) :
    (∀ i, ((At v i).1 = .error .out_of_range ↔ i ≥ v.size_) ∧
      ((At v i).1 = .error .out_of_range → (At v i).2 = v)) ∧
    (∀ i, i < v.size_ → ∃ y, v.array_[i]? = some y ∧ At v i = (.ok y, v)) ∧
    (∀ pos x, ((Insert fresh v pos x).1 = .error .out_of_range ↔
        (pos < 0 ∨ (v.size_ : Int) < pos)) ∧
      ((Insert fresh v pos x).1 = .error .out_of_range → (Insert fresh v pos x).2 = v)) ∧
    (∀ pos x, ((Insert_rv fresh v pos x).1 = .error .out_of_range ↔
        (pos < 0 ∨ (v.size_ : Int) < pos)) ∧
      ((Insert_rv fresh v pos x).1 = .error .out_of_range →
        (Insert_rv fresh v pos x).2 = v)) ∧
    (∀ pos, ((Erase fresh v pos).1 = .error .out_of_range ↔
        (pos < 0 ∨ (v.size_ : Int) < pos)) ∧
      ((Erase fresh v pos).1 = .error .out_of_range → (Erase fresh v pos).2 = v)) := by
  have he := end_eq_size v hinv
  refine ⟨?_, ?_, ?_, ?_, ?_⟩
  · intro i
    exact ⟨(At_cases v i).1, fun _ => (At_cases v i).2.1⟩
  · intro i hi
    have hlt : i < v.array_.length := by omega
    refine ⟨v.array_[i], List.getElem?_eq_getElem hlt, ?_⟩
    have h1 := (At_cases v i).2.2 hi _ (List.getElem?_eq_getElem hlt)
    have h2 := (At_cases v i).2.1
    exact Prod.ext h1 h2
  · intro pos x
    have h := Insert_out_of_range_iff fresh v pos x
    rw [he] at h
    exact h
  · intro pos x
    have h := Insert_out_of_range_iff fresh v pos x
    rw [he] at h
    rw [Insert_rv_eq]
    exact h
  · intro pos
    have h := Erase_out_of_range_iff fresh v pos
    rw [he] at h
    exact h

/-- C4, at the vector [99, 2, 3] of capacity 4: `At(10)`, `Insert(4, 7)` and `Erase(-1)`
report `std::out_of_range` and leave the vector as it was, and `At(1)` returns 2. -/
theorem C4_out_of_range_exact_and_atomic_witness :
    (3 ≤ 4 ∧ 3 ≤ [99, 2, 3, 0].length) ∧
    At (⟨4, 3, [99, 2, 3, 0]⟩ : SimpleVector Nat) 10
      = (.error .out_of_range, ⟨4, 3, [99, 2, 3, 0]⟩) ∧
    (At (⟨4, 3, [99, 2, 3, 0]⟩ : SimpleVector Nat) 1).1 = .ok 2 ∧
    Insert (0 : Nat) ⟨4, 3, [99, 2, 3, 0]⟩ 4 7
      = (.error .out_of_range, ⟨4, 3, [99, 2, 3, 0]⟩) ∧
    Erase (0 : Nat) ⟨4, 3, [99, 2, 3, 0]⟩ (-1)
      = (.error .out_of_range, ⟨4, 3, [99, 2, 3, 0]⟩) := by
  have h := C4_out_of_range_exact_and_atomic (0 : Nat) ⟨4, 3, [99, 2, 3, 0]⟩
    (by decide) (by decide)
  have hA := h.1 10
  have hI := h.2.2.1 4 7
  have hE := h.2.2.2.2 (-1)
  have hA1 := hA.1.2 (by decide)
  have hI1 := hI.1.2 (Or.inr (by decide))
  have hE1 := hE.1.2 (Or.inl (by decide))
  obtain ⟨y, hy, hy2⟩ := h.2.1 1 (by decide)
  have hy3 : y = 2 := by simpa using hy.symm
  refine ⟨⟨by decide, by decide⟩, Prod.ext hA1 (hA.2 hA1), ?_, Prod.ext hI1 (hI.2 hI1),
    Prod.ext hE1 (hE.2 hE1)⟩
  rw [hy2, hy3]

/-- C5: for every list `xs` of at most `2 ^ 63` values pushed in order with `PushBack`
onto a default-constructed vector: all pushes complete, the size is the number of values,
the elements are the values in push order, for one value or more the capacity is the
least power of two that is at least their number; and at every push (from the state `a`
after `k` pushes to the state `b` after `k + 1`) the size grows by one and stays within
the capacity, the capacity does not decrease, it is 0 or a power of two, it changes
exactly when the push was made at `size_ == capacity_`, from 0 to 1 and otherwise to its
double. -/
theorem C5_pushes_follow_doubling (fresh : α) (xs : List α) (hN : xs.length ≤ 2 ^ 63) :
    (PushBack_all fresh ctor_default xs).1 = .ok () ∧
    (PushBack_all fresh ctor_default xs).2.size_ = xs.length ∧
    (∀ i, i < xs.length → (PushBack_all fresh ctor_default xs).2.array_[i]? = xs[i]?) ∧
    (1 ≤ xs.length → ∃ j, (PushBack_all fresh ctor_default xs).2.capacity_ = 2 ^ j ∧
      xs.length ≤ 2 ^ j ∧ ∀ j1, xs.length ≤ 2 ^ j1 → j ≤ j1) ∧
    (∀ k a b, k < xs.length →
      a = (PushBack_all fresh ctor_default (xs.take k)).2 →
      b = (PushBack_all fresh ctor_default (xs.take (k + 1))).2 →
      a.size_ = k ∧ b.size_ = k + 1 ∧ b.size_ ≤ b.capacity_ ∧ a.capacity_ ≤ b.capacity_ ∧
      (a.capacity_ = 0 ∨ ∃ j, a.capacity_ = 2 ^ j) ∧
      (a.size_ = a.capacity_ → b.capacity_ = if a.capacity_ = 0 then 1 else 2 * a.capacity_) ∧
      (a.size_ ≠ a.capacity_ → b.capacity_ = a.capacity_)) := by
  have hM := SIZE_MOD_eq
  obtain ⟨c, a, hrun, _, hel, hcap⟩ := PushBack_all_ok fresh xs hN
  refine ⟨by rw [hrun], by rw [hrun], by rw [hrun]; exact hel, ?_, ?_⟩
  · intro h1
    rcases hcap with ⟨h0, _⟩ | ⟨j, hj, hle, hlt⟩
    · omega
    · refine ⟨j, by rw [hrun]; exact hj, hle, ?_⟩
      intro j1 hj1
      by_contra hcon
      have h2 : j1 + 1 ≤ j := by omega
      have h3 : 2 ^ (j1 + 1) ≤ 2 ^ j := Nat.pow_le_pow_right (by omega) h2
      rw [pow_succ] at h3
      omega
  · intro k va vb hk hva hvb
    have hlen : (xs.take k).length = k := by
      rw [List.length_take]; omega
    obtain ⟨ca, aa, hruna, hbufa, _, hcapa⟩ := PushBack_all_ok fresh (xs.take k) (by omega)
    rw [hlen] at hruna hcapa
    have hinv : k ≤ ca := by
      rcases hcapa with ⟨h0, _⟩ | ⟨j, hj, hle, _⟩ <;> omega
    have hrep : ca < SIZE_MOD := by
      rcases hcapa with ⟨_, h0⟩ | ⟨j, hj, _, hlt⟩ <;> omega
    obtain ⟨a1, hpush, _, _, _⟩ := PushBack_ok fresh ⟨ca, k, aa⟩ xs[k] hinv hbufa
      hrep (by intro h; dsimp only at h ⊢; omega)
    dsimp only at hpush
    have htake : xs.take (k + 1) = xs.take k ++ [xs[k]] := by
      rw [List.take_succ, List.getElem?_eq_getElem hk]
      rfl
    rw [htake, PushBack_all_snoc fresh (xs.take k) xs[k] _ _ hruna, hpush] at hvb
    rw [hruna] at hva
    subst hva hvb
    dsimp only
    refine ⟨rfl, rfl, ?_, ?_, ?_, ?_, ?_⟩
    · split_ifs <;> omega
    · split_ifs <;> omega
    · rcases hcapa with ⟨_, h0⟩ | ⟨j, hj, _, _⟩
      · exact Or.inl h0
      · exact Or.inr ⟨j, hj⟩
    · intro h
      split_ifs <;> omega
    · intro h
      split_ifs <;> omega

/-- C5, at the three pushes 1, 2, 3: size 3, capacity 4, elements [1, 2, 3]. -/
theorem C5_pushes_follow_doubling_witness :
    ([1, 2, 3] : List Nat).length ≤ 2 ^ 63 ∧
    (PushBack_all (0 : Nat) ctor_default [1, 2, 3]).1 = .ok () ∧
    (PushBack_all (0 : Nat) ctor_default [1, 2, 3]).2.size_ = 3 ∧
    (PushBack_all (0 : Nat) ctor_default [1, 2, 3]).2.array_[2]? = some 3 ∧
    (PushBack_all (0 : Nat) ctor_default [1, 2, 3]).2.capacity_ = 4 := by
  have h := C5_pushes_follow_doubling (0 : Nat) [1, 2, 3] (by norm_num)
  refine ⟨by norm_num, h.1, h.2.1, h.2.2.1 2 (by decide), ?_⟩
  obtain ⟨j, hj, hle, hleast⟩ := h.2.2.2.1 (by decide)
  have h2 : j ≤ 2 := hleast 2 (by decide)
  have h3 : j = 2 := by
    rcases Nat.lt_or_ge j 2 with h4 | h4
    · exfalso
      have : (2 : Nat) ^ j ≤ 2 ^ 1 := Nat.pow_le_pow_right (by omega) (by omega)
      simp at hle
      omega
    · omega
  rw [hj, h3]
  rfl

/-- C6, failing input: on the vector [7] of capacity 3 (three slots), `Resize(2)` asks
for a buffer of `size_ - new_size` slots, which is `2 ^ 64 - 1` in `size_t`, and moves
that many elements onto `array_[size_]` and the slots after it: the call does not
complete, and the size is still 1. -/
theorem C6_Resize_within_capacity_overruns :
    wsub 1 2 = 2 ^ 64 - 1 ∧
    Resize (0 : Int) ⟨3, 1, [7, 0, 0]⟩ 2 = (.error .out_of_bounds, ⟨3, 1, [7, 0, 0]⟩) := by
  have hw : wsub 1 2 = 2 ^ 64 - 1 := by norm_num [wsub, SIZE_MOD]
  refine ⟨hw, ?_⟩
  apply Resize_within_overrun
  · show 1 < 2
    omega
  · show 2 < 3
    omega
  · show wsub 1 2 ≠ 0
    rw [hw]; norm_num
  · show [(7 : Int), 0, 0].length < 1 + wsub 1 2
    rw [hw]; norm_num

/-- C7: with a buffer collaborator that allocates default-valued slots, on a vector with
`size_ <= capacity_` that stores its elements, `Resize(n)` for `n > capacity_` completes
and leaves size and capacity exactly `n`, the elements below the old size unchanged and
the default value at every index from the old size up to `n`; `SimpleVector(3, 7)` is
[7, 7, 7] with size and capacity 3, and `Resize(5)` makes it [7, 7, 7, 0, 0] with size
and capacity 5. -/
theorem C7_Resize_beyond_capacity [Inhabited α] (v : SimpleVector α) (n : Nat)
    (hinv : v.size_ ≤ v.capacity_) (hst : v.size_ ≤ v.array_.length)
    (hn : n > v.capacity_) :
    ((Resize default v n).1 = .ok () ∧
      (Resize default v n).2.size_ = n ∧ (Resize default v n).2.capacity_ = n ∧
      (∀ i, i < v.size_ → (Resize default v n).2.array_[i]? = v.array_[i]?) ∧
      (∀ i, v.size_ ≤ i → i < n → (Resize default v n).2.array_[i]? = some default)) ∧
    ctor_size_value (default : Int) 3 7 = (.ok (), ⟨3, 3, [7, 7, 7]⟩) ∧
    Resize (default : Int) ⟨3, 3, [7, 7, 7]⟩ 5 = (.ok (), ⟨5, 5, [7, 7, 7, 0, 0]⟩) := by
  obtain ⟨a, ha, _, hpre, hnew⟩ := Resize_grow_ok default v n hinv hst (by omega)
  rw [ha]
  exact ⟨⟨rfl, rfl, rfl, hpre, hnew⟩, rfl, rfl⟩

/-- C7, at the vector [7, 7, 7] of capacity 3 and the new size 5. -/
theorem C7_Resize_beyond_capacity_witness :
    (3 ≤ 3 ∧ 3 ≤ [7, 7, 7].length ∧ 5 > 3) ∧
    (Resize (default : Int) ⟨3, 3, [7, 7, 7]⟩ 5).2.size_ = 5 ∧
    (Resize (default : Int) ⟨3, 3, [7, 7, 7]⟩ 5).2.capacity_ = 5 ∧
    (Resize (default : Int) ⟨3, 3, [7, 7, 7]⟩ 5).2.array_[4]? = some 0 := by
  have h := (C7_Resize_beyond_capacity (⟨3, 3, [7, 7, 7]⟩ : SimpleVector Int) 5 (by decide)
    (by decide) (by decide)).1
  exact ⟨⟨by decide, by decide, by decide⟩, h.2.1, h.2.2.1,
    h.2.2.2.2 4 (by decide) (by decide)⟩

/-- C8: for an element type in which no value is less than itself, and a vector `src`
with `size_ <= capacity_` that stores its elements: the copy constructor completes, the
copy has the size of `src`, the capacity of `src` and the elements of `src` at every
index below the size, `copy == src` is true, and `src` is what it was. -/
theorem C8_copy_constructor [LT α] [@DecidableRel α (· < ·)] (hirr : ∀ a : α, ¬ a < a)
    (fresh : α) (src : SimpleVector α)
    (hinv : src.size_ ≤ src.capacity_) (hst : src.size_ ≤ src.array_.length) :
    (ctor_copy fresh src).1 = .ok () ∧
    (ctor_copy fresh src).2.1.size_ = src.size_ ∧
    (ctor_copy fresh src).2.1.capacity_ = src.capacity_ ∧
    (∀ i, i < src.size_ → (ctor_copy fresh src).2.1.array_[i]? = src.array_[i]?) ∧
    op_eq (ctor_copy fresh src).2.1 src = .ok true ∧
    (ctor_copy fresh src).2.2 = src := by
  have he := end_eq_size src hinv
  rw [ctor_copy_ok fresh src hinv hst]
  refine ⟨rfl, rfl, rfl, ?_, ?_, rfl⟩
  · intro i hi
    exact List.getElem?_take_of_lt hi
  · have he2 : (⟨src.capacity_, src.size_, src.array_.take src.size_⟩ : SimpleVector α).end_
        = src.size_ := end_eq_size _ hinv
    have hr1 : range (⟨src.capacity_, src.size_, src.array_.take src.size_⟩ : SimpleVector α)
        = some (src.array_.take src.size_) := by
      simp only [range, he2, List.length_take, List.take_take]
      simp [hst]
    have hr2 : range src = some (src.array_.take src.size_) := by
      simp [range, he, hst]
    simp only [op_eq, op_lt, hr1, hr2, lexicographical_compare_self hirr]
    rfl

/-- C8, at the vector [1, 2] of capacity 4: the copy has size 2, capacity 4, the elements
1 and 2, and compares equal. -/
theorem C8_copy_constructor_witness :
    ((∀ a : Nat, ¬ a < a) ∧ 2 ≤ 4 ∧ 2 ≤ [1, 2, 0, 0].length) ∧
    (ctor_copy (0 : Nat) ⟨4, 2, [1, 2, 0, 0]⟩).2.1.size_ = 2 ∧
    (ctor_copy (0 : Nat) ⟨4, 2, [1, 2, 0, 0]⟩).2.1.capacity_ = 4 ∧
    (ctor_copy (0 : Nat) ⟨4, 2, [1, 2, 0, 0]⟩).2.1.array_[1]? = some 2 ∧
    op_eq (ctor_copy (0 : Nat) ⟨4, 2, [1, 2, 0, 0]⟩).2.1 ⟨4, 2, [1, 2, 0, 0]⟩ = .ok true := by
  have h := C8_copy_constructor (fun a : Nat => Nat.lt_irrefl a) (0 : Nat)
    ⟨4, 2, [1, 2, 0, 0]⟩ (by decide) (by decide)
  exact ⟨⟨fun a => Nat.lt_irrefl a, by decide, by decide⟩, h.2.1, h.2.2.1,
    h.2.2.2.1 1 (by decide), h.2.2.2.2.1⟩

/-- C9: the move constructor gives the new object the size, capacity and buffer of the
source and leaves the source with size 0 and capacity 0; move assignment between two
distinct objects does the same for the destination and the source; move assignment of
an object to itself changes nothing. -/
theorem C9_move_transfers (src : SimpleVector α) (s : Store α) (dst a : Nat) :
    ((ctor_move src).1.size_ = src.size_ ∧ (ctor_move src).1.capacity_ = src.capacity_ ∧
      (ctor_move src).1.array_ = src.array_ ∧
      (ctor_move src).2.size_ = 0 ∧ (ctor_move src).2.capacity_ = 0) ∧
    (dst ≠ a →
      (move_assign s dst a dst).size_ = (s a).size_ ∧
      (move_assign s dst a dst).capacity_ = (s a).capacity_ ∧
      (move_assign s dst a dst).array_ = (s a).array_ ∧
      (move_assign s dst a a).size_ = 0 ∧ (move_assign s dst a a).capacity_ = 0) ∧
    move_assign s a a = s := by
  refine ⟨⟨rfl, rfl, rfl, rfl, rfl⟩, ?_, ?_⟩
  · intro h
    simp [move_assign, h, Function.update]
  · simp [move_assign]

/-- C9, at a store holding [5] (capacity 1) at address 0 and [1, 2] (capacity 4) at
address 1: after the object at 0 is move-assigned from the object at 1, it has size 2,
capacity 4 and the buffer of the source, and the source has size 0 and capacity 0. -/
theorem C9_move_transfers_witness :
    (0 : Nat) ≠ 1 ∧
    (move_assign (fun n => if n = 0 then (⟨1, 1, [5]⟩ : SimpleVector Nat)
      else ⟨4, 2, [1, 2, 0, 0]⟩) 0 1 0).size_ = 2 ∧
    (move_assign (fun n => if n = 0 then (⟨1, 1, [5]⟩ : SimpleVector Nat)
      else ⟨4, 2, [1, 2, 0, 0]⟩) 0 1 0).array_ = [1, 2, 0, 0] ∧
    (move_assign (fun n => if n = 0 then (⟨1, 1, [5]⟩ : SimpleVector Nat)
      else ⟨4, 2, [1, 2, 0, 0]⟩) 0 1 1).capacity_ = 0 := by
  have h := (C9_move_transfers (⟨0, 0, []⟩ : SimpleVector Nat)
    (fun n => if n = 0 then (⟨1, 1, [5]⟩ : SimpleVector Nat) else ⟨4, 2, [1, 2, 0, 0]⟩)
    0 1).2.1 (by decide)
  exact ⟨by decide, h.1, h.2.2.1, h.2.2.2.2⟩

/-- C10, failing input: a default-constructed vector satisfies `size_ <= capacity_`;
`Erase` at its end position (which is also its begin position) is accepted by the range
check, completes, and leaves `size_ = 2 ^ 64 - 1` with `capacity_ = 0`. -/
theorem C10_Erase_end_of_empty_breaks_invariant :
    (ctor_default : SimpleVector Int).size_ ≤ (ctor_default : SimpleVector Int).capacity_ ∧
    Erase (0 : Int) ctor_default 0 = (.ok 0, ⟨0, 2 ^ 64 - 1, []⟩) ∧
    ¬ ((Erase (0 : Int) ctor_default 0).2.size_ ≤ (Erase (0 : Int) ctor_default 0).2.capacity_) := by
  have e : Erase (0 : Int) ctor_default 0 = (.ok 0, ⟨0, 2 ^ 64 - 1, []⟩) := by
    simp [Erase, ctor_default, end_, moveLoop, ArrayPtr.alloc, wadd, wsub, SIZE_MOD]
  refine ⟨Nat.le_refl _, e, ?_⟩
  rw [e]
  norm_num

/-- C11: over a totally ordered element type, for two vectors with `size_ <= capacity_`
that store their elements, `a == b` completes, it is true exactly when the sizes are
equal and the elements at every index below the size are pairwise equal, and `a != b`
is its negation. -/
theorem C11_equality_is_elementwise [LinearOrder α] (a b : SimpleVector α)
    (ha1 : a.size_ ≤ a.capacity_) (ha2 : a.size_ ≤ a.array_.length)
    (hb1 : b.size_ ≤ b.capacity_) (hb2 : b.size_ ≤ b.array_.length) :
    (op_eq a b = .ok true ↔
      (a.size_ = b.size_ ∧ ∀ i, i < a.size_ → a.array_[i]? = b.array_[i]?)) ∧
    (op_eq a b = .ok false ↔
      ¬ (a.size_ = b.size_ ∧ ∀ i, i < a.size_ → a.array_[i]? = b.array_[i]?)) ∧
    (∃ r, op_eq a b = .ok r ∧ op_ne a b = .ok (!r)) := by
  have heq := op_eq_ok a b ha1 ha2 hb1 hb2
  have hlex := lexicographical_compare_both_false (a.array_.take a.size_)
    (b.array_.take b.size_)
  rw [take_eq_take_iff a.array_ b.array_ a.size_ b.size_ ha2 hb2] at hlex
  have key : (!(lexicographical_compare (a.array_.take a.size_) (b.array_.take b.size_)) &&
       !(lexicographical_compare (b.array_.take b.size_) (a.array_.take a.size_))) = true ↔
      (a.size_ = b.size_ ∧ ∀ i, i < a.size_ → a.array_[i]? = b.array_[i]?) := by
    rw [← hlex]
    simp
  refine ⟨?_, ?_, ?_⟩
  · rw [heq, ← key]
    simp
  · rw [heq, ← key]
    simp
  · exact ⟨_, heq, by simp only [op_ne, heq]⟩

/-- C11, at [1, 2] of capacity 2 and [1, 2] of capacity 4 (with 9 in the spare slots):
`==` is true and `!=` is false. -/
theorem C11_equality_is_elementwise_witness :
    (2 ≤ 2 ∧ 2 ≤ [1, 2].length ∧ 2 ≤ 4 ∧ 2 ≤ [1, 2, 9, 9].length) ∧
    op_eq (⟨2, 2, [1, 2]⟩ : SimpleVector Nat) ⟨4, 2, [1, 2, 9, 9]⟩ = .ok true ∧
    op_ne (⟨2, 2, [1, 2]⟩ : SimpleVector Nat) ⟨4, 2, [1, 2, 9, 9]⟩ = .ok false := by
  have h := C11_equality_is_elementwise (⟨2, 2, [1, 2]⟩ : SimpleVector Nat)
    ⟨4, 2, [1, 2, 9, 9]⟩ (by decide) (by decide) (by decide) (by decide)
  have h1 : op_eq (⟨2, 2, [1, 2]⟩ : SimpleVector Nat) ⟨4, 2, [1, 2, 9, 9]⟩ = .ok true := by
    apply h.1.2
    refine ⟨rfl, ?_⟩
    intro i hi
    have hi2 : i < 2 := hi
    interval_cases i <;> rfl
  refine ⟨⟨by decide, by decide, by decide, by decide⟩, h1, ?_⟩
  obtain ⟨r, hr, hne⟩ := h.2.2
  rw [h1] at hr
  cases hr
  exact hne

/-- C12, failing input: on the vectors [2] and [1], `[2] >= [1]` evaluates to false and
`[1] >= [2]` to true, while `[2] < [1]` is false and `[1] < [2]` is true: `operator>=`,
written `rhs > lhs || rhs == lhs`, returns what `operator<=` returns. -/
theorem C12_greater_equal_is_reversed :
    op_ge (⟨1, 1, [2]⟩ : SimpleVector Int) ⟨1, 1, [1]⟩ = .ok false ∧
    op_ge (⟨1, 1, [1]⟩ : SimpleVector Int) ⟨1, 1, [2]⟩ = .ok true ∧
    op_lt (⟨1, 1, [2]⟩ : SimpleVector Int) ⟨1, 1, [1]⟩ = .ok false ∧
    op_lt (⟨1, 1, [1]⟩ : SimpleVector Int) ⟨1, 1, [2]⟩ = .ok true ∧
    op_le (⟨1, 1, [2]⟩ : SimpleVector Int) ⟨1, 1, [1]⟩ = .ok false ∧
    op_le (⟨1, 1, [1]⟩ : SimpleVector Int) ⟨1, 1, [2]⟩ = .ok true := by
  refine ⟨?_, ?_, ?_, ?_, ?_, ?_⟩ <;>
    simp [op_ge, op_gt, op_le, op_eq, op_lt, range, end_, lexicographical_compare]

/-- C13: over a totally ordered element type, for vectors with `size_ <= capacity_` that
store their elements: `a < b` completes; it is true exactly when the elements of `a` are
a proper prefix of those of `b` or, at the first index where they differ, the element
of `a` is less than that of `b`; vectors `a2`, `b2` with the sizes and the elements
below the size of `a`, `b` (whatever their capacities and spare slots) compare the same;
and `a > b` is `b < a`. -/
theorem C13_less_is_lexicographic [LinearOrder α] (a b a2 b2 : SimpleVector α)
    (ha1 : a.size_ ≤ a.capacity_) (ha2 : a.size_ ≤ a.array_.length)
    (hb1 : b.size_ ≤ b.capacity_) (hb2 : b.size_ ≤ b.array_.length)
    (ha3 : a2.size_ ≤ a2.capacity_) (ha4 : a2.size_ ≤ a2.array_.length)
    (hb3 : b2.size_ ≤ b2.capacity_) (hb4 : b2.size_ ≤ b2.array_.length)
    (hsa : a2.size_ = a.size_) (hea : ∀ i, i < a.size_ → a2.array_[i]? = a.array_[i]?)
    (hsb : b2.size_ = b.size_) (heb : ∀ i, i < b.size_ → b2.array_[i]? = b.array_[i]?) :
    (op_lt a b = .ok true ∨ op_lt a b = .ok false) ∧
    (op_lt a b = .ok true ↔
      ((a.size_ < b.size_ ∧ ∀ i, i < a.size_ → a.array_[i]? = b.array_[i]?) ∨
       ∃ k, k < a.size_ ∧ k < b.size_ ∧ (∀ i, i < k → a.array_[i]? = b.array_[i]?) ∧
         ∃ x y, a.array_[k]? = some x ∧ b.array_[k]? = some y ∧ x < y)) ∧
    op_lt a2 b2 = op_lt a b ∧
    op_gt a b = op_lt b a := by
  refine ⟨?_, op_lt_iff a b ha1 ha2 hb1 hb2, ?_, ?_⟩
  · rw [op_lt_ok a b ha1 ha2 hb1 hb2]
    cases lexicographical_compare (a.array_.take a.size_) (b.array_.take b.size_)
    · exact Or.inr rfl
    · exact Or.inl rfl
  · have e1 : a2.array_.take a2.size_ = a.array_.take a.size_ :=
      (take_eq_take_iff a2.array_ a.array_ a2.size_ a.size_ ha4 ha2).mpr
        ⟨hsa, fun i hi => hea i (by omega)⟩
    have e2 : b2.array_.take b2.size_ = b.array_.take b.size_ :=
      (take_eq_take_iff b2.array_ b.array_ b2.size_ b.size_ hb4 hb2).mpr
        ⟨hsb, fun i hi => heb i (by omega)⟩
    rw [op_lt_ok a2 b2 ha3 ha4 hb3 hb4, op_lt_ok a b ha1 ha2 hb1 hb2, e1, e2]
  · simp only [op_gt, op_lt]

/-- C13, at [1, 2, 3] and [1, 2, 4] of capacity 3, and the same elements in buffers of
capacity 4 with other spare slots: `[1, 2, 3] < [1, 2, 4]` is true on both pairs, and
`[1, 2, 4] > [1, 2, 3]` is true. -/
theorem C13_less_is_lexicographic_witness :
    op_lt (⟨3, 3, [1, 2, 3]⟩ : SimpleVector Int) ⟨3, 3, [1, 2, 4]⟩ = .ok true ∧
    op_lt (⟨4, 3, [1, 2, 3, 8]⟩ : SimpleVector Int) ⟨4, 3, [1, 2, 4, 0]⟩ = .ok true ∧
    op_gt (⟨3, 3, [1, 2, 4]⟩ : SimpleVector Int) ⟨3, 3, [1, 2, 3]⟩ = .ok true ∧
    op_lt (⟨2, 2, [1, 2]⟩ : SimpleVector Int) ⟨3, 3, [1, 2, 3]⟩ = .ok true ∧
    op_lt (ctor_default : SimpleVector Int) ⟨1, 1, [1]⟩ = .ok true := by
  have h := C13_less_is_lexicographic (⟨3, 3, [1, 2, 3]⟩ : SimpleVector Int)
    ⟨3, 3, [1, 2, 4]⟩ ⟨4, 3, [1, 2, 3, 8]⟩ ⟨4, 3, [1, 2, 4, 0]⟩
    (by decide) (by decide) (by decide) (by decide) (by decide) (by decide) (by decide)
    (by decide) rfl
    (by intro i hi; have hi2 : i < 3 := hi; interval_cases i <;> rfl) rfl
    (by intro i hi; have hi2 : i < 3 := hi; interval_cases i <;> rfl)
  have h1 : op_lt (⟨3, 3, [1, 2, 3]⟩ : SimpleVector Int) ⟨3, 3, [1, 2, 4]⟩ = .ok true := by
    apply h.2.1.2
    right
    refine ⟨2, by decide, by decide, ?_, 3, 4, rfl, rfl, by decide⟩
    intro i hi
    interval_cases i <;> rfl
  refine ⟨h1, ?_, ?_, ?_, ?_⟩
  · rw [h.2.2.1]; exact h1
  · have h2 := (C13_less_is_lexicographic (⟨3, 3, [1, 2, 4]⟩ : SimpleVector Int)
      ⟨3, 3, [1, 2, 3]⟩ ⟨3, 3, [1, 2, 4]⟩ ⟨3, 3, [1, 2, 3]⟩
      (by decide) (by decide) (by decide) (by decide) (by decide) (by decide) (by decide)
      (by decide) rfl (fun _ _ => rfl) rfl (fun _ _ => rfl)).2.2.2
    rw [h2]; exact h1
  · simp [op_lt, range, end_, lexicographical_compare]
  · simp [op_lt, range, end_, ctor_default, lexicographical_compare]

/-- C14: on a vector with `size_ <= capacity_` that stores its elements, `Reserve(n)`
completes; for `n <= capacity_` it changes nothing; otherwise it sets the capacity to
exactly `n` and keeps the size and the elements below the size; the capacity never
decreases; and the vector constructed from the reserve request `Reserve(n)` has size 0
and capacity `n`. -/
theorem C14_Reserve_sets_capacity (fresh : α) (v : SimpleVector α) (n : Nat)
    (hinv : v.size_ ≤ v.capacity_) (hst : v.size_ ≤ v.array_.length) :
    (Reserve fresh v n).1 = .ok () ∧
    (n ≤ v.capacity_ → (Reserve fresh v n).2 = v) ∧
    (v.capacity_ < n → (Reserve fresh v n).2.capacity_ = n ∧
      (Reserve fresh v n).2.size_ = v.size_ ∧
      ∀ i, i < v.size_ → (Reserve fresh v n).2.array_[i]? = v.array_[i]?) ∧
    v.capacity_ ≤ (Reserve fresh v n).2.capacity_ ∧
    ((ctor_reserve fresh (Reserve_request n)).1 = .ok () ∧
      (ctor_reserve fresh (Reserve_request n)).2.size_ = 0 ∧
      (ctor_reserve fresh (Reserve_request n)).2.capacity_ = n) := by
  obtain ⟨hle, hgt⟩ := Reserve_ok fresh v n hinv hst
  refine ⟨?_, ?_, ?_, ?_, ?_⟩
  · by_cases h : n ≤ v.capacity_
    · rw [hle h]
    · obtain ⟨a, ha, _, _⟩ := hgt (by omega)
      rw [ha]
  · intro h
    rw [hle h]
  · intro h
    obtain ⟨a, ha, _, hel⟩ := hgt h
    rw [ha]
    exact ⟨rfl, rfl, hel⟩
  · by_cases h : n ≤ v.capacity_
    · rw [hle h]
    · obtain ⟨a, ha, _, _⟩ := hgt (by omega)
      rw [ha]
      show v.capacity_ ≤ n
      omega
  · obtain ⟨hle0, hgt0⟩ := Reserve_ok fresh (ctor_default : SimpleVector α) n
      (Nat.le_refl _) (Nat.zero_le _)
    by_cases h : n ≤ (ctor_default : SimpleVector α).capacity_
    · have hn : n = 0 := by
        have : (ctor_default : SimpleVector α).capacity_ = 0 := rfl
        omega
      simp only [ctor_reserve, Reserve_request]
      rw [hle0 h]
      exact ⟨rfl, rfl, hn.symm⟩
    · obtain ⟨a, ha, _, _⟩ := hgt0 (by omega)
      simp only [ctor_reserve, Reserve_request]
      rw [ha]
      exact ⟨rfl, rfl, rfl⟩

/-- C14, at the vector [1, 2] of capacity 2: `Reserve(5)` leaves capacity 5, size 2 and
the element 2 at index 1; `Reserve(1)` changes nothing. -/
theorem C14_Reserve_sets_capacity_witness :
    (2 ≤ 2 ∧ 2 ≤ [1, 2].length) ∧
    (Reserve (0 : Nat) ⟨2, 2, [1, 2]⟩ 5).2.capacity_ = 5 ∧
    (Reserve (0 : Nat) ⟨2, 2, [1, 2]⟩ 5).2.size_ = 2 ∧
    (Reserve (0 : Nat) ⟨2, 2, [1, 2]⟩ 5).2.array_[1]? = some 2 ∧
    (Reserve (0 : Nat) ⟨2, 2, [1, 2]⟩ 1).2 = ⟨2, 2, [1, 2]⟩ := by
  have h := C14_Reserve_sets_capacity (0 : Nat) ⟨2, 2, [1, 2]⟩ 5 (by decide) (by decide)
  have h5 := h.2.2.1 (by decide)
  have h1 := (C14_Reserve_sets_capacity (0 : Nat) ⟨2, 2, [1, 2]⟩ 1 (by decide)
    (by decide)).2.1 (by decide)
  exact ⟨⟨by decide, by decide⟩, h5.1, h5.2.1, h5.2.2 1 (by decide), h1⟩

/-- C15: copy assignment `a = b` between objects at the addresses `a` and `b`, where the
source has `size_ <= capacity_` and stores its elements, completes and does one of three
things: for `a` and `b` the same object nothing changes; for a distinct empty `b` the
size of `a` becomes 0 and its capacity stays; otherwise `a` ends with the size, the
capacity and the elements of `b`, and `a == b` is true (for an element type in which no
value is less than itself).  The object at `b` is what it was in every case. -/
theorem C15_copy_assignment [LT α] [@DecidableRel α (· < ·)] (hirr : ∀ x : α, ¬ x < x)
    (fresh : α) (s : Store α) (a b : Nat)
    (hb1 : (s b).size_ ≤ (s b).capacity_) (hb2 : (s b).size_ ≤ (s b).array_.length) :
    (copy_assign fresh s a b).1 = .ok () ∧
    (a = b → (copy_assign fresh s a b).2 = s) ∧
    (a ≠ b → (s b).size_ = 0 →
      ((copy_assign fresh s a b).2 a).size_ = 0 ∧
      ((copy_assign fresh s a b).2 a).capacity_ = (s a).capacity_) ∧
    (a ≠ b → (s b).size_ ≠ 0 →
      ((copy_assign fresh s a b).2 a).size_ = (s b).size_ ∧
      ((copy_assign fresh s a b).2 a).capacity_ = (s b).capacity_ ∧
      (∀ i, i < (s b).size_ →
        ((copy_assign fresh s a b).2 a).array_[i]? = (s b).array_[i]?) ∧
      op_eq ((copy_assign fresh s a b).2 a) (s b) = .ok true) ∧
    (copy_assign fresh s a b).2 b = s b := by
  have hcopy := ctor_copy_ok fresh (s b) hb1 hb2
  by_cases hab : a = b
  · subst hab
    simp [copy_assign]
  · by_cases h0 : (s b).size_ = 0
    · have hba : b ≠ a := fun h => hab h.symm
      simp [copy_assign, hab, h0, Clear, Function.update, hba]
    · have hba : b ≠ a := fun h => hab h.symm
      have e : copy_assign fresh s a b = (.ok (), Function.update (Function.update s b (s b)) a
          ⟨(s b).capacity_, (s b).size_, (s b).array_.take (s b).size_⟩) := by
        simp only [copy_assign, if_neg hab, if_neg h0, hcopy, swap]
      rw [e]
      refine ⟨rfl, fun h => absurd h hab, fun _ h => absurd h h0, ?_, ?_⟩
      · intro _ _
        dsimp only
        rw [Function.update_same]
        refine ⟨rfl, rfl, ?_, op_eq_copy hirr (s b) hb1 hb2⟩
        intro i hi
        exact List.getElem?_take_of_lt hi
      · simp [Function.update, hba]

/-- C15, at a store holding [5] (capacity 1) at address 0 and [1, 2] (capacity 4) at
address 1: after `a = b` for the objects at 0 and 1, the object at 0 has size 2,
capacity 4 and the element 2 at index 1, and the object at 1 is what it was. -/
theorem C15_copy_assignment_witness :
    ((0 : Nat) ≠ 1 ∧ 2 ≤ 4 ∧ 2 ≤ [1, 2, 0, 0].length) ∧
    ((copy_assign (0 : Nat) (fun n => if n = 0 then (⟨1, 1, [5]⟩ : SimpleVector Nat)
      else ⟨4, 2, [1, 2, 0, 0]⟩) 0 1).2 0).size_ = 2 ∧
    ((copy_assign (0 : Nat) (fun n => if n = 0 then (⟨1, 1, [5]⟩ : SimpleVector Nat)
      else ⟨4, 2, [1, 2, 0, 0]⟩) 0 1).2 0).capacity_ = 4 ∧
    ((copy_assign (0 : Nat) (fun n => if n = 0 then (⟨1, 1, [5]⟩ : SimpleVector Nat)
      else ⟨4, 2, [1, 2, 0, 0]⟩) 0 1).2 0).array_[1]? = some 2 ∧
    (copy_assign (0 : Nat) (fun n => if n = 0 then (⟨1, 1, [5]⟩ : SimpleVector Nat)
      else ⟨4, 2, [1, 2, 0, 0]⟩) 0 1).2 1 = ⟨4, 2, [1, 2, 0, 0]⟩ := by
  have h := C15_copy_assignment (fun x : Nat => Nat.lt_irrefl x) (0 : Nat)
    (fun n => if n = 0 then (⟨1, 1, [5]⟩ : SimpleVector Nat) else ⟨4, 2, [1, 2, 0, 0]⟩) 0 1
    (by decide) (by decide)
  have h3 := h.2.2.2.1 (by decide) (by decide)
  exact ⟨⟨by decide, by decide, by decide⟩, h3.1, h3.2.1, h3.2.2.1 1 (by decide), h.2.2.2.2⟩

/-- C16, failing input: on the vector [1, 2] (size 2, capacity 2), `Erase` at the end
position 2 is accepted by the range check, completes, leaves size 1 and returns the
position 2, which is past the end of the resulting vector. -/
theorem C16_Erase_at_end_returns_past_the_end :
    (2 : Nat) ≤ 2 ∧
    Erase (0 : Int) ⟨2, 2, [1, 2]⟩ 2 = (.ok 2, ⟨2, 1, [1, 2]⟩) ∧
    ((Erase (0 : Int) ⟨2, 2, [1, 2]⟩ 2).2.size_ : Int) < 2 := by
  have e : Erase (0 : Int) ⟨2, 2, [1, 2]⟩ 2 = (.ok 2, ⟨2, 1, [1, 2]⟩) := by
    simp [Erase, end_, moveLoop, ArrayPtr.alloc, ArrayPtr.read, ArrayPtr.write, wadd, wsub,
      SIZE_MOD, List.replicate]
  refine ⟨Nat.le_refl _, e, ?_⟩
  rw [e]
  norm_num

/-- C17, failing input: the vector left by `PushBack(1)` and `Clear()` on a
default-constructed vector has size 0 and capacity 1; on it the assertion of `PopBack`
(`capacity_ != 0`) passes, the call completes, and the size is `2 ^ 64 - 1`. -/
theorem C17_PopBack_assertion_misses_empty :
    (Clear (PushBack (0 : Int) ctor_default 1).2).2 = ⟨1, 0, [1]⟩ ∧
    PopBack (⟨1, 0, [1]⟩ : SimpleVector Int) = (.ok (), ⟨1, 2 ^ 64 - 1, [1]⟩) := by
  constructor
  · simp [PushBack, Clear, ctor_default, end_, std_copy, copyLoop, ArrayPtr.alloc,
      ArrayPtr.write, wadd, SIZE_MOD]
  · simp [PopBack, wsub, SIZE_MOD]

/-- C18, failing input: the source [1] of capacity 4 owns 4 slots; its copy has capacity 4
and a buffer of 1 slot; `PushBack(2)` on the copy takes the in-place branch and writes
`array_[1]`, outside the buffer. -/
theorem C18_copy_buffer_smaller_than_capacity :
    ctor_copy (0 : Int) ⟨4, 1, [1, 0, 0, 0]⟩
      = (.ok (), ⟨4, 1, [1]⟩, ⟨4, 1, [1, 0, 0, 0]⟩) ∧
    (ctor_copy (0 : Int) ⟨4, 1, [1, 0, 0, 0]⟩).2.1.array_.length
      < (ctor_copy (0 : Int) ⟨4, 1, [1, 0, 0, 0]⟩).2.1.capacity_ ∧
    PushBack (0 : Int) (ctor_copy (0 : Int) ⟨4, 1, [1, 0, 0, 0]⟩).2.1 2
      = (.error .out_of_bounds, ⟨4, 1, [1]⟩) := by
  have e : ctor_copy (0 : Int) ⟨4, 1, [1, 0, 0, 0]⟩
      = (.ok (), ⟨4, 1, [1]⟩, ⟨4, 1, [1, 0, 0, 0]⟩) := by
    simp [ctor_copy, end_, std_copy, copyLoop, ArrayPtr.alloc, ArrayPtr.read, ArrayPtr.write,
      List.replicate]
  refine ⟨e, ?_, ?_⟩
  · rw [e]
    decide
  · rw [e]
    simp [PushBack, ArrayPtr.write]

/-- Inserting at the end and appending agree when the buffer holds `capacity_` slots: on
a vector with `size_ <= capacity_` whose buffer holds `capacity_` slots, with
`capacity_ * 2` representable in `size_t`, `Insert` at the end position and `PushBack`
of the same value both complete and leave the same size, the same capacity and the same
element at every index below the new size, and `Insert` returns the old size. -/
theorem Insert_at_end_is_PushBack_in_buffer (fresh : α) (v : SimpleVector α) (x : α)
    (hinv : v.size_ ≤ v.capacity_) (hbuf : v.capacity_ ≤ v.array_.length)
    (hov : v.capacity_ * 2 < SIZE_MOD) :
    (Insert fresh v (v.size_ : Int) x).1 = .ok (v.size_ : Int) ∧
    (PushBack fresh v x).1 = .ok () ∧
    (Insert fresh v (v.size_ : Int) x).2.size_ = (PushBack fresh v x).2.size_ ∧
    (PushBack fresh v x).2.size_ = v.size_ + 1 ∧
    (Insert fresh v (v.size_ : Int) x).2.capacity_ = (PushBack fresh v x).2.capacity_ ∧
    (∀ i, i < v.size_ + 1 →
      (Insert fresh v (v.size_ : Int) x).2.array_[i]? = (PushBack fresh v x).2.array_[i]?) := by
  obtain ⟨a, ha, _, hpre, hat, _⟩ := Insert_ok fresh v v.size_ x hinv (by omega) hov
    (Nat.le_refl _)
  obtain ⟨b, hb, _, hpre2, hlast⟩ := PushBack_ok fresh v x hinv hbuf (by
    have := SIZE_MOD_eq
    omega) (fun _ => hov)
  rw [ha, hb]
  refine ⟨rfl, rfl, rfl, rfl, ?_, ?_⟩
  · show (if v.capacity_ = 0 then 1
        else if v.size_ = v.capacity_ then 2 * v.capacity_ else v.capacity_)
      = (if v.capacity_ > v.size_ then v.capacity_
        else if v.capacity_ ≠ 0 then 2 * v.capacity_ else 1)
    split_ifs <;> omega
  · intro i hi
    show a[i]? = b[i]?
    by_cases h : i < v.size_
    · rw [hpre i h, hpre2 i h]
    · have e : i = v.size_ := by omega
      rw [e, hat, hlast]

/-- At the full vector [1, 2] of capacity 2 (two slots) and the value 3: `Insert` at the
end and `PushBack` both leave size 3 and capacity 4, and `Insert` returns 2. -/
theorem Insert_at_end_is_PushBack_in_buffer_example :
    (2 ≤ 2 ∧ 2 ≤ [1, 2].length ∧ 2 * 2 < SIZE_MOD) ∧
    (Insert (0 : Nat) ⟨2, 2, [1, 2]⟩ 2 3).1 = .ok 2 ∧
    (Insert (0 : Nat) ⟨2, 2, [1, 2]⟩ 2 3).2.size_ = 3 ∧
    (Insert (0 : Nat) ⟨2, 2, [1, 2]⟩ 2 3).2.capacity_
      = (PushBack (0 : Nat) ⟨2, 2, [1, 2]⟩ 3).2.capacity_ ∧
    (Insert (0 : Nat) ⟨2, 2, [1, 2]⟩ 2 3).2.array_[2]?
      = (PushBack (0 : Nat) ⟨2, 2, [1, 2]⟩ 3).2.array_[2]? := by
  have h := Insert_at_end_is_PushBack_in_buffer (0 : Nat) ⟨2, 2, [1, 2]⟩ 3 (by decide) (by decide)
    (by norm_num [SIZE_MOD])
  exact ⟨⟨by decide, by decide, by norm_num [SIZE_MOD]⟩, h.1, h.2.2.1.trans h.2.2.2.1,
    h.2.2.2.2.1, h.2.2.2.2.2 2 (by decide)⟩

/-- C19, failing input: on the copy of the vector [1] of capacity 4 (the copy has
`size_ = 1 <= capacity_ = 4` and a buffer of 1 slot), `Insert` at the end position
completes and leaves [1, 2] with size 2 and capacity 4, while `PushBack` of the same
value writes `array_[1]` outside the buffer and does not complete: the two calls do not
leave the same vector. -/
theorem C19_Insert_at_end_differs_from_PushBack_on_copy :
    (ctor_copy (0 : Int) ⟨4, 1, [1, 0, 0, 0]⟩).2.1 = ⟨4, 1, [1]⟩ ∧
    (⟨4, 1, [1]⟩ : SimpleVector Int).size_ ≤ (⟨4, 1, [1]⟩ : SimpleVector Int).capacity_ ∧
    Insert (0 : Int) ⟨4, 1, [1]⟩ 1 2 = (.ok 1, ⟨4, 2, [1, 2, 0, 0]⟩) ∧
    PushBack (0 : Int) ⟨4, 1, [1]⟩ 2 = (.error .out_of_bounds, ⟨4, 1, [1]⟩) ∧
    (Insert (0 : Int) ⟨4, 1, [1]⟩ 1 2).2.size_ ≠ (PushBack (0 : Int) ⟨4, 1, [1]⟩ 2).2.size_ := by
  have e1 : Insert (0 : Int) ⟨4, 1, [1]⟩ 1 2 = (.ok 1, ⟨4, 2, [1, 2, 0, 0]⟩) := by
    simp [Insert, end_, std_copy, std_copy_backward, copyLoop, ArrayPtr.alloc, ArrayPtr.read,
      ArrayPtr.write, wadd, SIZE_MOD, List.replicate]
  have e2 : PushBack (0 : Int) ⟨4, 1, [1]⟩ 2 = (.error .out_of_bounds, ⟨4, 1, [1]⟩) := by
    simp [PushBack, ArrayPtr.write]
  refine ⟨?_, by decide, e1, e2, ?_⟩
  · simp [ctor_copy, end_, std_copy, copyLoop, ArrayPtr.alloc, ArrayPtr.read, ArrayPtr.write,
      List.replicate]
  · rw [e1, e2]
    decide

/-- C20: on a vector with `size_ <= capacity_` that stores its elements, with
`capacity_ * 2` representable in `size_t`, `Insert` at an index `p <= size_` followed by
`Erase` at the position `Insert` returned completes, returns `p`, and leaves the size
and every element below the size as they were before the two calls; the capacity is
not smaller than before. -/
theorem C20_Erase_undoes_Insert (fresh : α) (v : SimpleVector α) (p : Nat) (x : α)
    (hinv : v.size_ ≤ v.capacity_) (hst : v.size_ ≤ v.array_.length)
    (hov : v.capacity_ * 2 < SIZE_MOD) (hp : p ≤ v.size_) :
    (Erase_after_Insert fresh v (p : Int) x).1 = .ok (p : Int) ∧
    (Erase_after_Insert fresh v (p : Int) x).2.size_ = v.size_ ∧
    (∀ i, i < v.size_ →
      (Erase_after_Insert fresh v (p : Int) x).2.array_[i]? = v.array_[i]?) ∧
    v.capacity_ ≤ (Erase_after_Insert fresh v (p : Int) x).2.capacity_ := by
  have hM := SIZE_MOD_eq
  obtain ⟨a, ha, hlen, hpre, _, hpost⟩ := Insert_ok fresh v p x hinv hst hov hp
  have hnc : v.size_ + 1 ≤ (if v.capacity_ = 0 then 1
      else if v.size_ = v.capacity_ then 2 * v.capacity_ else v.capacity_) := by
    split_ifs <;> omega
  have hnc2 : (if v.capacity_ = 0 then 1
      else if v.size_ = v.capacity_ then 2 * v.capacity_ else v.capacity_) < SIZE_MOD := by
    split_ifs <;> omega
  have hnc3 : v.capacity_ ≤ (if v.capacity_ = 0 then 1
      else if v.size_ = v.capacity_ then 2 * v.capacity_ else v.capacity_) := by
    split_ifs <;> omega
  obtain ⟨a2, ha2, _, hpre2, hpost2⟩ := Erase_ok fresh
    (⟨if v.capacity_ = 0 then 1
      else if v.size_ = v.capacity_ then 2 * v.capacity_ else v.capacity_,
      v.size_ + 1, a⟩ : SimpleVector α) p hnc (by rw [hlen]; exact hnc) hnc2
    (by show p ≤ v.size_ + 1; omega) (by omega)
  have hw : wsub (v.size_ + 1) 1 = v.size_ := by
    rw [wsub_of_le (by omega) (by omega)]
    omega
  have e : Erase_after_Insert fresh v (p : Int) x = (.ok (p : Int),
      ⟨if v.capacity_ = 0 then 1
        else if v.size_ = v.capacity_ then 2 * v.capacity_ else v.capacity_,
        v.size_, a2⟩) := by
    simp only [Erase_after_Insert, ha, ha2, hw]
  rw [e]
  refine ⟨rfl, rfl, ?_, hnc3⟩
  intro i hi
  show a2[i]? = v.array_[i]?
  by_cases h : i < p
  · rw [hpre2 i h, hpre i h]
  · rw [hpost2 i (by omega) (by show i + 1 < v.size_ + 1; omega), hpost i (by omega) hi]

/-- C20, at the vector [1, 2, 3] of capacity 3, index 1 and the value 99: after the two
calls the size is 3, the capacity is 6, the elements are 1, 2, 3 and the position
returned is 1. -/
theorem C20_Erase_undoes_Insert_witness :
    (3 ≤ 3 ∧ 3 ≤ [1, 2, 3].length ∧ 3 * 2 < SIZE_MOD ∧ 1 ≤ 3) ∧
    (Erase_after_Insert (0 : Nat) ⟨3, 3, [1, 2, 3]⟩ 1 99).1 = .ok 1 ∧
    (Erase_after_Insert (0 : Nat) ⟨3, 3, [1, 2, 3]⟩ 1 99).2.size_ = 3 ∧
    (Erase_after_Insert (0 : Nat) ⟨3, 3, [1, 2, 3]⟩ 1 99).2.array_[1]? = some 2 ∧
    (Erase_after_Insert (0 : Nat) ⟨3, 3, [1, 2, 3]⟩ 1 99).2.array_[2]? = some 3 := by
  have h := C20_Erase_undoes_Insert (0 : Nat) ⟨3, 3, [1, 2, 3]⟩ 1 99 (by decide) (by decide)
    (by norm_num [SIZE_MOD]) (by decide)
  exact ⟨⟨by decide, by decide, by norm_num [SIZE_MOD], by decide⟩, h.1, h.2.1,
    h.2.2.1 1 (by decide), h.2.2.1 2 (by decide)⟩

end SimpleVector
